import Mathlib

/-!
Verification development for the go-autocomplete-trie library (package trie).
The Go source in trie.go is shallowly embedded: Go strings become lists of
code points, Go maps become association lists (Go map iteration order is
unspecified; every observable result proved here is independent of it, and the
model fixes insertion order), and the recursive search walker is given an
explicit fuel parameter standing for recursion depth.
-/

set_option autoImplicit false
set_option linter.unnecessarySeqFocus false

namespace GoTrie

/-- A Unicode code point, as produced by ranging over a Go string. -/
abbrev Rune := Nat

/-- A Go string, viewed as its sequence of code points (runes). -/
abbrev GoStr := List Rune

/-- Embed a Lean string literal as a rune sequence. -/
def goStr (s : String) : GoStr := s.data.map Char.toNat

/-- Lookup in a Go map modelled as an association list. -/
def mapGet {α β : Type} [DecidableEq α] : List (α × β) → α → Option β
  | [], _ => none
  | (k, v) :: rest, a => if k = a then some v else mapGet rest a

/-- Go map assignment m[k] = v: replace in place, or append a new key. -/
def mapSet {α β : Type} [DecidableEq α] : List (α × β) → α → β → List (α × β)
  | [], a, b => [(a, b)]
  | (k, v) :: rest, a, b => if k = a then (a, b) :: rest else (k, v) :: mapSet rest a b

/-- Go delete(m, k). -/
def mapDel {α β : Type} [DecidableEq α] : List (α × β) → α → List (α × β)
  | [], _ => []
  | (k, v) :: rest, a => if k = a then rest else (k, v) :: mapDel rest a

mutual
/-- trie.go node: a map of runes to child nodes, a word marking a terminal
node when non-empty, and the attached metadata (interface{}, nil = none). -/
inductive Node (μ : Type) : Type where
  | mk : ChildList μ → GoStr → Option μ → Node μ

/-- The children map of a node, keyed by rune, in insertion order. -/
inductive ChildList (μ : Type) : Type where
  | nil : ChildList μ
  | cons : Rune → Node μ → ChildList μ → ChildList μ
end

variable {μ : Type}

def Node.children : Node μ → ChildList μ
  | .mk cs _ _ => cs

def Node.word : Node μ → GoStr
  | .mk _ w _ => w

def Node.meta : Node μ → Option μ
  | .mk _ _ m => m

/-- Map read node.children[r]. -/
def ChildList.find : ChildList μ → Rune → Option (Node μ)
  | .nil, _ => none
  | .cons k n rest, r => if k = r then some n else ChildList.find rest r

/-- Map write node.children[r] = n. -/
def ChildList.set : ChildList μ → Rune → Node μ → ChildList μ
  | .nil, r, n => .cons r n .nil
  | .cons k m rest, r, n => if k = r then .cons r n rest else .cons k m (ChildList.set rest r n)

/-- Map delete(node.children, r). -/
def ChildList.del : ChildList μ → Rune → ChildList μ
  | .nil, _ => .nil
  | .cons k m rest, r => if k = r then rest else .cons k m (ChildList.del rest r)

def ChildList.isNil : ChildList μ → Bool
  | .nil => true
  | .cons _ _ _ => false

def ChildList.toList : ChildList μ → List (Rune × Node μ)
  | .nil => []
  | .cons k n rest => (k, n) :: ChildList.toList rest

/-- Height of the subtrees hanging off a children map (0 when empty). -/
def ChildList.heightList : ChildList μ → Nat
  | .nil => 0
  | .cons _ (.mk cs _ _) rest => max (1 + ChildList.heightList cs) (ChildList.heightList rest)

/-- Height of a node: 1 plus the tallest child subtree. -/
def Node.height (n : Node μ) : Nat := 1 + ChildList.heightList n.children

/-- The context supplied by the golang.org/x/text and strings libraries:
tf models transform.Chain(norm.NFD, runes.Remove(runes.In(unicode.Mn)),
norm.NFC) applied via transform.String (none = error), and lower models
the per-rune action of strings.ToLower. -/
structure Ctx where
  tf : GoStr → Option GoStr
  lower : Rune → Rune

/-- strings.ToLower, rune by rune. -/
def lowerStr (ctx : Ctx) (s : GoStr) : GoStr := s.map ctx.lower

/-- trie.go Trie: root node, configuration flags, levenshtein scheme and
intervals, and the normalised-to-original dictionary. The sync.RWMutex has
no observable effect in the single-threaded semantics modelled here. -/
structure Trie (μ : Type) where
  root : Node μ
  fuzzy : Bool
  normalised : Bool
  caseSensitive : Bool
  levenshteinScheme : List (Nat × Nat)
  levenshteinIntervals : List Nat
  originalDict : List (GoStr × List GoStr)

def Trie.WithFuzzy (t : Trie μ) : Trie μ := { t with fuzzy := true }

def Trie.WithoutFuzzy (t : Trie μ) : Trie μ := { t with fuzzy := false }

def Trie.WithNormalisation (t : Trie μ) : Trie μ := { t with normalised := true }

def Trie.WithoutNormalisation (t : Trie μ) : Trie μ := { t with normalised := false }

def Trie.CaseSensitive (t : Trie μ) : Trie μ := { t with caseSensitive := true }

def Trie.CaseInsensitive (t : Trie μ) : Trie μ := { t with caseSensitive := false }

def Trie.WithoutLevenshtein (t : Trie μ) : Trie μ :=
  { t with levenshteinScheme := [(0, 0)], levenshteinIntervals := [0] }

/-- DefaultLevenshtein: scheme {0:0, 3:1, 5:2}; the intervals slice is
written in the source as {long, medium, long} = {5, 3, 5}. -/
def Trie.DefaultLevenshtein (t : Trie μ) : Trie μ :=
  { t with levenshteinScheme := [(0, 0), (3, 1), (5, 2)],
           levenshteinIntervals := [5, 3, 5] }

/-- CustomLevenshtein: none models the panic on a scheme with no entry for
length 0. The interval slice is the scheme keys sorted descending. -/
def Trie.CustomLevenshtein (t : Trie μ) (scheme : List (Nat × Nat)) : Option (Trie μ) :=
  match mapGet scheme 0 with
  | none => none
  | some _ =>
    some { t with
      levenshteinIntervals :=
        List.insertionSort (fun a b => a ≥ b) (scheme.map Prod.fst),
      levenshteinScheme := scheme }

/-- New: empty root, empty dictionary, then the four default configurators. -/
def New : Trie μ :=
  let base : Trie μ :=
    { root := .mk .nil [] none, fuzzy := false, normalised := false,
      caseSensitive := false, levenshteinScheme := [], levenshteinIntervals := [],
      originalDict := [] }
  base.WithFuzzy.WithNormalisation.DefaultLevenshtein.CaseInsensitive

/-- maxDistance helper: scan the intervals; the first interval not exceeding
the rune length selects the scheme value (missing key reads as 0, the Go
zero value; falling off the list also yields the zero value). -/
def maxDistanceAux (scheme : List (Nat × Nat)) (len : Nat) : List Nat → Nat
  | [] => 0
  | limit :: rest =>
    if limit ≤ len then (mapGet scheme limit).getD 0 else maxDistanceAux scheme len rest

def Trie.maxDistance (t : Trie μ) (search : GoStr) : Nat :=
  maxDistanceAux t.levenshteinScheme search.length t.levenshteinIntervals

/-- The node-path walk of insertInternal: children are created along the
missing suffix; a freshly created final node gets word and meta; after the
walk the final node's meta is overwritten when its word equals the entry. -/
def insertWalk : Node μ → GoStr → GoStr → Option μ → Node μ
  | .mk cs w m, [], entry, meta =>
    if w = entry then .mk cs w meta else .mk cs w m
  | .mk cs w m, c :: rest, entry, meta =>
    match cs.find c with
    | some child => .mk (cs.set c (insertWalk child rest entry meta)) w m
    | none =>
      let fresh : Node μ :=
        if rest.isEmpty then .mk .nil entry meta else .mk .nil [] none
      .mk (cs.set c (insertWalk fresh rest entry meta)) w m

/-- insertInternal: empty input is a no-op; the switch mirrors the Go source
(the normalised cases drop the entry entirely on a transform error; the
not-normalised case-sensitive combination matches no case and inserts the
raw entry without touching originalDict). -/
def Trie.insertInternal (ctx : Ctx) (t : Trie μ) (entry : GoStr) (meta : Option μ) : Trie μ :=
  if entry.isEmpty then t
  else
    match t.normalised, t.caseSensitive with
    | true, true =>
      match ctx.tf entry with
      | none => t
      | some normal =>
        let dict := mapSet t.originalDict normal ((mapGet t.originalDict normal).getD [] ++ [entry])
        { t with originalDict := dict, root := insertWalk t.root normal normal meta }
    | true, false =>
      match ctx.tf entry with
      | none => t
      | some normal0 =>
        let normal := lowerStr ctx normal0
        let dict := mapSet t.originalDict normal ((mapGet t.originalDict normal).getD [] ++ [entry])
        { t with originalDict := dict, root := insertWalk t.root normal normal meta }
    | false, false =>
      let lower := lowerStr ctx entry
      let dict := mapSet t.originalDict lower ((mapGet t.originalDict lower).getD [] ++ [entry])
      { t with originalDict := dict, root := insertWalk t.root lower lower meta }
    | false, true =>
      { t with root := insertWalk t.root entry entry meta }

/-- Insert: the variadic entry loop. -/
def Trie.Insert (ctx : Ctx) (t : Trie μ) (entries : List GoStr) : Trie μ :=
  entries.foldl (fun t e => t.insertInternal ctx e none) t

def Trie.InsertWithMeta (ctx : Ctx) (t : Trie μ) (word : GoStr) (meta : Option μ) : Trie μ :=
  t.insertInternal ctx word meta

def Trie.BulkInsertWithMeta (ctx : Ctx) (t : Trie μ) (entries : List (GoStr × Option μ)) : Trie μ :=
  entries.foldl (fun t e => t.insertInternal ctx e.1 e.2) t

/-- The canonicalisation switch shared verbatim by Delete and FindMeta: on a
transform error the raw word is used as the key. -/
def canonFallback (ctx : Ctx) (t : Trie μ) (word : GoStr) : GoStr :=
  match t.normalised, t.caseSensitive with
  | true, true => (ctx.tf word).getD word
  | true, false =>
    match ctx.tf word with
    | some normal => lowerStr ctx normal
    | none => word
  | false, false => lowerStr ctx word
  | false, true => word

/-- The traverse-clear-prune phase of Delete. none means some path segment
was missing, in which case the node tree is untouched. A child is removed
from its parent exactly when, after the deletion below it, it is both
childless and non-terminal; otherwise the pruning stops there. -/
def deleteWalk : Node μ → GoStr → Option (Node μ)
  | .mk cs _ _, [] => some (.mk cs [] none)
  | .mk cs w m, c :: rest =>
    match cs.find c with
    | none => none
    | some child =>
      match deleteWalk child rest with
      | none => none
      | some child1 =>
        if child1.children.isNil && child1.word.isEmpty then some (.mk (cs.del c) w m)
        else some (.mk (cs.set c child1) w m)

/-- Delete: canonicalise with raw fallback, remove the whole originalDict
entry, then walk-and-prune (a missing path leaves the tree untouched but the
dictionary entry is already gone). -/
def Trie.Delete (ctx : Ctx) (t : Trie μ) (word : GoStr) : Trie μ :=
  let w := canonFallback ctx t word
  let t1 := { t with originalDict := mapDel t.originalDict w }
  match deleteWalk t1.root w with
  | none => t1
  | some root1 => { t1 with root := root1 }

/-- Path walk shared by FindMeta. -/
def findWalk : Node μ → GoStr → Option (Node μ)
  | n, [] => some n
  | n, c :: rest =>
    match n.children.find c with
    | none => none
    | some child => findWalk child rest

/-- FindMeta: found only when the final node's stored word equals the key. -/
def Trie.FindMeta (ctx : Ctx) (t : Trie μ) (word : GoStr) : Option μ × Bool :=
  let w := canonFallback ctx t word
  match findWalk t.root w with
  | none => (none, false)
  | some n => if n.word = w then (n.meta, true) else (none, false)

/-- A search score: levenshtein distance spent and whether the unscored
fuzzy relaxation was used on the path. -/
structure Score where
  levenshtein : Nat
  fuzzy : Bool
deriving DecidableEq, Repr

/-- A fuzzy search hit with its metadata. -/
structure Match (μ : Type) where
  Word : GoStr
  Meta : Option μ
deriving DecidableEq, Repr

/-- A score together with the metadata captured for the word. -/
structure MatchScore (μ : Type) where
  score : Score
  meta : Option μ
deriving DecidableEq, Repr

/-- The mutable collection map of collect. -/
abbrev Col := List (GoStr × Score)

/-- The mutable collection map of collectMeta. -/
abbrev MCol (μ : Type) := List (GoStr × MatchScore μ)

/-- The best-score update rule shared by collect and
collectAllDescendentWords: overwrite when the word is new, strictly closer,
or equally close but the stored record used the fuzzy relaxation and the new
one does not. -/
def scoreUpdate (col : Col) (w : GoStr) (distance : Nat) (fuzzyUsed : Bool) : Col :=
  match mapGet col w with
  | none => mapSet col w ⟨distance, fuzzyUsed⟩
  | some prev =>
    if distance < prev.levenshtein ∨
        (distance = prev.levenshtein ∧ prev.fuzzy = true ∧ fuzzyUsed = false) then
      mapSet col w ⟨distance, fuzzyUsed⟩
    else col

/-- The same rule for collectMeta, additionally capturing the node's meta. -/
def mscoreUpdate (mcol : MCol μ) (w : GoStr) (distance : Nat) (fuzzyUsed : Bool)
    (meta : Option μ) : MCol μ :=
  match mapGet mcol w with
  | none => mapSet mcol w ⟨⟨distance, fuzzyUsed⟩, meta⟩
  | some prev =>
    if distance < prev.score.levenshtein ∨
        (distance = prev.score.levenshtein ∧ prev.score.fuzzy = true ∧ fuzzyUsed = false) then
      mapSet mcol w ⟨⟨distance, fuzzyUsed⟩, meta⟩
    else mcol

/-- collectAllDescendentWords, as a loop over a children map: record each
terminal child, then descend into it. Fuel counts descent depth; none means
the fuel ran out (the real recursion is proved to stay within the height
bound below). -/
def descendLoop : Nat → ChildList μ → Col → Nat → Bool → Option Col
  | _, .nil, col, _, _ => some col
  | fuel, .cons _ (.mk cs2 w2 _) rest, col, distance, fuzzyUsed =>
    let col1 := if w2.isEmpty then col else scoreUpdate col w2 distance fuzzyUsed
    match fuel with
    | 0 => none
    | f + 1 =>
      (descendLoop f cs2 col1 distance fuzzyUsed).bind
        (fun col2 => descendLoop (f + 1) rest col2 distance fuzzyUsed)

/-- The meta variant of the descendant sweep. -/
def mdescendLoop : Nat → ChildList μ → MCol μ → Nat → Bool → Option (MCol μ)
  | _, .nil, mcol, _, _ => some mcol
  | fuel, .cons _ (.mk cs2 w2 m2) rest, mcol, distance, fuzzyUsed =>
    let mcol1 := if w2.isEmpty then mcol else mscoreUpdate mcol w2 distance fuzzyUsed m2
    match fuel with
    | 0 => none
    | f + 1 =>
      (mdescendLoop f cs2 mcol1 distance fuzzyUsed).bind
        (fun mcol2 => mdescendLoop (f + 1) rest mcol2 distance fuzzyUsed)

def Node.collectAllDescendentWords (fuel : Nat) (n : Node μ) (col : Col)
    (distance : Nat) (fuzzyUsed : Bool) : Option Col :=
  descendLoop fuel n.children col distance fuzzyUsed

def Node.collectAllDescendentWordsMeta (fuel : Nat) (n : Node μ) (mcol : MCol μ)
    (distance : Nat) (fuzzyUsed : Bool) : Option (MCol μ) :=
  mdescendLoop fuel n.children mcol distance fuzzyUsed

/-- The per-child body of the edit-operations loop of collect: substitution
(edge rune replaces the next query rune), insertion (edge rune prepended to
the whole remaining query), and, when allowed, the unscored fuzzy descent at
the undone distance. f is the recursive call at one less fuel. -/
def editLoop (f : Col → GoStr → Node μ → Nat → Bool → Bool → Option Col)
    (word subword : GoStr) (n : Node μ) (d1 : Nat) (fuzzyAllowed fuzzyUsed : Bool) :
    ChildList μ → Col → Option Col
  | .nil, col => some col
  | .cons c next rest, col =>
    (f col (c :: subword) n d1 false fuzzyUsed).bind (fun col1 =>
      (f col1 (c :: word) n d1 false fuzzyUsed).bind (fun col2 =>
        (if fuzzyAllowed then f col2 word next (d1 - 1) true true else some col2).bind
          (fun col3 => editLoop f word subword n d1 fuzzyAllowed fuzzyUsed rest col3)))

/-- The exhausted-budget loop of collect: only the fuzzy descent is offered. -/
def fuzzyLoop (f : Col → GoStr → Node μ → Nat → Bool → Bool → Option Col)
    (word : GoStr) (distance : Nat) (fuzzyAllowed : Bool) :
    ChildList μ → Col → Option Col
  | .nil, col => some col
  | .cons _ next rest, col =>
    (if fuzzyAllowed then f col word next distance true true else some col).bind
      (fun col1 => fuzzyLoop f word distance fuzzyAllowed rest col1)

/-- The meta variants of the two loops. -/
def meditLoop (f : MCol μ → GoStr → Node μ → Nat → Bool → Bool → Option (MCol μ))
    (word subword : GoStr) (n : Node μ) (d1 : Nat) (fuzzyAllowed fuzzyUsed : Bool) :
    ChildList μ → MCol μ → Option (MCol μ)
  | .nil, mcol => some mcol
  | .cons c next rest, mcol =>
    (f mcol (c :: subword) n d1 false fuzzyUsed).bind (fun mcol1 =>
      (f mcol1 (c :: word) n d1 false fuzzyUsed).bind (fun mcol2 =>
        (if fuzzyAllowed then f mcol2 word next (d1 - 1) true true else some mcol2).bind
          (fun mcol3 => meditLoop f word subword n d1 fuzzyAllowed fuzzyUsed rest mcol3)))

def mfuzzyLoop (f : MCol μ → GoStr → Node μ → Nat → Bool → Bool → Option (MCol μ))
    (word : GoStr) (distance : Nat) (fuzzyAllowed : Bool) :
    ChildList μ → MCol μ → Option (MCol μ)
  | .nil, mcol => some mcol
  | .cons _ next rest, mcol =>
    (if fuzzyAllowed then f mcol word next distance true true else some mcol).bind
      (fun mcol1 => mfuzzyLoop f word distance fuzzyAllowed rest mcol1)

/-- utf8.DecodeRuneInString on the empty string yields RuneError. -/
def runeError : Rune := 0xFFFD

/-- The wildcard rune of collect. -/
def starRune : Rune := 42

/-- collect, with fuel standing for the recursion depth. The body transcribes
the Go function: empty query records the terminal word (if any) and sweeps
descendants (only the terminal case returns early); then the wildcard branch,
the exact-edge branch, and either the edit-operations loop plus the single
deletion, or (at distance 0 with exhausted budget) the bare fuzzy loop. -/
def collectFuel : Nat → Col → GoStr → Node μ → Nat → Nat → Nat → Bool → Bool → Option Col
  | 0, _, _, _, _, _, _, _, _ => none
  | fuel + 1, col, word, n, distance, maxDistance, limit, fuzzyAllowed, fuzzyUsed =>
    if word.isEmpty && !n.word.isEmpty then
      descendLoop fuel n.children (scoreUpdate col n.word distance fuzzyUsed) distance fuzzyUsed
    else
      (if word.isEmpty then descendLoop fuel n.children col distance fuzzyUsed
        else some col).bind (fun col1 =>
      (if (match word with | [] => runeError | c :: _ => c) = starRune then
          collectFuel fuel col1 (match word with | [] => [] | _ :: r => r)
            n distance maxDistance limit false fuzzyUsed
        else some col1).bind (fun col2 =>
      (match n.children.find (match word with | [] => runeError | c :: _ => c) with
        | some next =>
          collectFuel fuel col2 (match word with | [] => [] | _ :: r => r)
            next distance maxDistance limit false fuzzyUsed
        | none => some col2).bind (fun col3 =>
      if distance < maxDistance then
        (editLoop (fun c w nd d a u => collectFuel fuel c w nd d maxDistance limit a u)
            word (match word with | [] => [] | _ :: r => r)
            n (distance + 1) fuzzyAllowed fuzzyUsed n.children col3).bind (fun col4 =>
          collectFuel fuel col4 (match word with | [] => [] | _ :: r => r)
            n (distance + 1) maxDistance limit false false)
      else if distance = 0 then
        fuzzyLoop (fun c w nd d a u => collectFuel fuel c w nd d maxDistance limit a u)
          word distance fuzzyAllowed n.children col3
      else some col3)))

/-- collectMeta, the same traversal carrying metadata into the collection. -/
def collectMetaFuel : Nat → MCol μ → GoStr → Node μ → Nat → Nat → Nat → Bool → Bool → Option (MCol μ)
  | 0, _, _, _, _, _, _, _, _ => none
  | fuel + 1, mcol, word, n, distance, maxDistance, limit, fuzzyAllowed, fuzzyUsed =>
    if word.isEmpty && !n.word.isEmpty then
      mdescendLoop fuel n.children (mscoreUpdate mcol n.word distance fuzzyUsed n.meta)
        distance fuzzyUsed
    else
      (if word.isEmpty then mdescendLoop fuel n.children mcol distance fuzzyUsed
        else some mcol).bind (fun mcol1 =>
      (if (match word with | [] => runeError | c :: _ => c) = starRune then
          collectMetaFuel fuel mcol1 (match word with | [] => [] | _ :: r => r)
            n distance maxDistance limit false fuzzyUsed
        else some mcol1).bind (fun mcol2 =>
      (match n.children.find (match word with | [] => runeError | c :: _ => c) with
        | some next =>
          collectMetaFuel fuel mcol2 (match word with | [] => [] | _ :: r => r)
            next distance maxDistance limit false fuzzyUsed
        | none => some mcol2).bind (fun mcol3 =>
      if distance < maxDistance then
        (meditLoop (fun c w nd d a u => collectMetaFuel fuel c w nd d maxDistance limit a u)
            word (match word with | [] => [] | _ :: r => r)
            n (distance + 1) fuzzyAllowed fuzzyUsed n.children mcol3).bind (fun mcol4 =>
          collectMetaFuel fuel mcol4 (match word with | [] => [] | _ :: r => r)
            n (distance + 1) maxDistance limit false false)
      else if distance = 0 then
        mfuzzyLoop (fun c w nd d a u => collectMetaFuel fuel c w nd d maxDistance limit a u)
          word distance fuzzyAllowed n.children mcol3
      else some mcol3)))

/-- Go string comparison (bytewise, which over valid UTF-8 coincides with
code-point lexicographic order). -/
def goStrLt : GoStr → GoStr → Bool
  | [], [] => false
  | [], _ :: _ => true
  | _ :: _, [] => false
  | a :: s, b :: tl => if a < b then true else if b < a then false else goStrLt s tl

/-- The sort.Slice comparator of Search, reading scores from the collection
(a missing key reads as the zero value, as in Go). -/
def searchLess (col : Col) (a b : GoStr) : Bool :=
  let sa := (mapGet col a).getD ⟨0, false⟩
  let sb := (mapGet col b).getD ⟨0, false⟩
  if sa.levenshtein ≠ sb.levenshtein then decide (sa.levenshtein < sb.levenshtein)
  else if sa.fuzzy && !sb.fuzzy then false
  else if !sa.fuzzy && sb.fuzzy then true
  else goStrLt a b

/-- The comparator of SearchAllMeta, identical but keyed through Match.Word. -/
def metaLess (mcol : MCol μ) (a b : Match μ) : Bool :=
  let sa := ((mapGet mcol a.Word).getD ⟨⟨0, false⟩, none⟩).score
  let sb := ((mapGet mcol b.Word).getD ⟨⟨0, false⟩, none⟩).score
  if sa.levenshtein ≠ sb.levenshtein then decide (sa.levenshtein < sb.levenshtein)
  else if sa.fuzzy && !sb.fuzzy then false
  else if !sa.fuzzy && sb.fuzzy then true
  else goStrLt a.Word b.Word

/-- Insertion sort; under the strict total comparators above it produces the
unique ascending order that sort.Slice produces on distinct keys. -/
def insOne {α : Type} (less : α → α → Bool) (a : α) : List α → List α
  | [] => [a]
  | b :: l => if less a b then a :: b :: l else b :: insOne less a l

def insSort {α : Type} (less : α → α → Bool) : List α → List α
  | [] => []
  | a :: l => insOne less a (insSort less l)

/-- Fuel that dominates the recursion depth of collect (proved sufficient
below): twice the remaining budget plus node height plus query length. -/
def collectBound (word : GoStr) (n : Node μ) (distance maxDistance : Nat) : Nat :=
  2 * (maxDistance - distance) + n.height + word.length + 1

/-- The canonicalisation phase of Search / SearchAllMeta: a transform error
aborts with an empty result (none); lowering applies afterwards. -/
def searchCanonical (ctx : Ctx) (t : Trie μ) (search : GoStr) : Option GoStr :=
  match (if t.normalised then ctx.tf search else some search) with
  | none => none
  | some s1 => some (if !t.caseSensitive then lowerStr ctx s1 else s1)

/-- The collection built by Search for an already-canonical query. -/
def Trie.collection (t : Trie μ) (s2 : GoStr) (limit : Nat) : Col :=
  let maxDist := t.maxDistance s2
  (collectFuel (collectBound s2 t.root 0 maxDist) [] s2 t.root 0 maxDist limit t.fuzzy false).getD []

/-- The sorted canonical hit list of Search. -/
def Trie.sortedHits (t : Trie μ) (s2 : GoStr) (limit : Nat) : List GoStr :=
  let col := t.collection s2 limit
  insSort (searchLess col) (col.map Prod.fst)

/-- Search: empty query short-circuit, canonicalisation, collection, sort,
the early truncated return, and registry expansion (which drops a hit whose
dictionary entry is empty or missing). -/
def Trie.Search (ctx : Ctx) (t : Trie μ) (search : GoStr) (limit : Nat) : List GoStr :=
  if search.isEmpty then []
  else
    match searchCanonical ctx t search with
    | none => []
    | some s2 =>
      let hits := t.sortedHits s2 limit
      if limit ≤ hits.length && limit ≠ 0 then hits.take limit
      else if !t.normalised && t.caseSensitive then hits
      else hits.flatMap (fun h => (mapGet t.originalDict h).getD [])

def Trie.SearchAll (ctx : Ctx) (t : Trie μ) (search : GoStr) : List GoStr :=
  t.Search ctx search 0

/-- The meta collection built by SearchAllMeta (it passes limit 0). -/
def Trie.mcollection (t : Trie μ) (s2 : GoStr) : MCol μ :=
  let maxDist := t.maxDistance s2
  (collectMetaFuel (collectBound s2 t.root 0 maxDist) [] s2 t.root 0 maxDist 0 t.fuzzy false).getD []

/-- The sorted hit list of SearchAllMeta. -/
def Trie.metaSorted (t : Trie μ) (s2 : GoStr) : List (Match μ) :=
  let mcol := t.mcollection s2
  insSort (metaLess mcol) (mcol.map (fun p => ⟨p.1, p.2.meta⟩))

/-- SearchAllMeta: as Search without a limit, but a hit whose dictionary
entry is empty survives expansion as its canonical self. -/
def Trie.SearchAllMeta (ctx : Ctx) (t : Trie μ) (search : GoStr) : List (Match μ) :=
  if search.isEmpty then []
  else
    match searchCanonical ctx t search with
    | none => []
    | some s2 =>
      let sorted := t.metaSorted s2
      if !t.normalised && t.caseSensitive then sorted
      else sorted.flatMap (fun hit =>
        let originals := (mapGet t.originalDict hit.Word).getD []
        if originals.isEmpty then [hit]
        else originals.map (fun orig => ⟨orig, hit.Meta⟩))

/-- The modelled behaviour of the transform chain NFD, remove Mn, NFC,
restricted to the code points exercised in this development: ASCII code
points have no decomposition and are not combining marks, so they pass
through unchanged; code points in U+0300-U+036F (Combining Diacritical
Marks, all category Mn) are removed, and no recomposition applies once the
marks are gone. The transformation never errors on these inputs. -/
def asciiTf (s : GoStr) : Option GoStr :=
  some (s.filter (fun r => !(0x300 ≤ r && r ≤ 0x36F)))

/-- unicode.ToLower restricted to ASCII. -/
def asciiLower (r : Rune) : Rune := if 65 ≤ r && r ≤ 90 then r + 32 else r

def asciiCtx : Ctx := ⟨asciiTf, asciiLower⟩

/-- Observation used to state the registry/terminal-node invariant: whether
the path of w leads to a node whose stored word is exactly w. -/
def hasTerminal (t : Trie μ) (w : GoStr) : Bool :=
  match findWalk t.root w with
  | some n => decide (n.word = w)
  | none => false

/-- The largest threshold in keys that does not exceed n (0 when none is,
which cannot happen once a 0 floor is present). Written from the spec's
description of the budget rule, for comparison with maxDistance. -/
def largestLE (keys : List Nat) (n : Nat) : Nat :=
  (keys.filter (fun k => k ≤ n)).foldr max 0

/-- The default dictionary of the examples: the seven weekdays. -/
def dayTrie : Trie Nat :=
  Trie.Insert asciiCtx New
    [goStr "Monday", goStr "Tuesday", goStr "Wednesday", goStr "Thursday",
     goStr "Friday", goStr "Saturday", goStr "Sunday"]

/-- A default-configuration trie holding abc then its strict prefix ab. -/
def prefixTrie : Trie Nat :=
  (New.InsertWithMeta asciiCtx (goStr "abc") (some 1)).InsertWithMeta asciiCtx (goStr "ab") (some 2)

/-- A default-configuration trie holding the originals A and B. -/
def abTrie : Trie Nat := Trie.Insert asciiCtx New [goStr "A", goStr "B"]

/-- A default-configuration trie holding only Monday. -/
def monTrie : Trie Nat := Trie.Insert asciiCtx New [goStr "Monday"]

/-- A trie filled while case-sensitive and unnormalised (so no originalDict
entry is written), then switched to case-insensitive. -/
def switchedTrie : Trie Nat :=
  (Trie.Insert asciiCtx New.CaseSensitive.WithoutNormalisation [goStr "a"]).CaseInsensitive

/-- Forget the metadata of a meta collection, leaving the score collection. -/
def projCol (mcol : MCol μ) : Col := mcol.map (fun p => (p.1, p.2.score))

/-- The sorted canonical hit list an unlimited search computes for a raw
query (empty on an empty query or a failed transform). -/
def Trie.searchHits (ctx : Ctx) (t : Trie μ) (q : GoStr) : List GoStr :=
  if q.isEmpty then []
  else
    match searchCanonical ctx t q with
    | none => []
    | some s2 => t.sortedHits s2 0

/-- All nodes hanging off a children map, in traversal order. -/
def subnodesList : ChildList μ → List (Node μ)
  | .nil => []
  | .cons _ (.mk cs2 w2 m2) rest =>
    Node.mk cs2 w2 m2 :: (subnodesList cs2 ++ subnodesList rest)

/-- A node together with every node reachable below it. -/
def Node.subnodes (n : Node μ) : List (Node μ) := n :: subnodesList n.children

/-- The metadata stored at the canonical node of w: the node reached from
root by the code points of w stores the word w and the metadata m. Stated
from the claim's words over the source path walk, for comparison with what
SearchAllMeta attaches to its records. -/
def nodeMetaIs (root : Node μ) (w : GoStr) (m : Option μ) : Prop :=
  match findWalk root w with
  | some nf => nf.word = w ∧ nf.meta = m
  | none => False

instance instDecidableNodeMetaIs [DecidableEq μ] (root : Node μ) (w : GoStr)
    (m : Option μ) : Decidable (nodeMetaIs root w m) :=
  match hfw : findWalk root w with
  | some nf =>
    decidable_of_iff (nf.word = w ∧ nf.meta = m) (by unfold nodeMetaIs; rw [hfw])
  | none => decidable_of_iff False (by unfold nodeMetaIs; rw [hfw])

/-- Every entry of a meta collection carries the metadata stored at the
canonical node of its word. -/
def metaOkCol (root : Node μ) (mcol : MCol μ) : Prop :=
  ∀ p ∈ mcol, nodeMetaIs root p.1 p.2.meta

end GoTrie

namespace GoTrie

set_option maxRecDepth 8000

/-- C1: after InsertWithMeta("abc", 1) then InsertWithMeta("ab", 2) under the
default configuration, the claim demands FindMeta("ab") = (2, true), since
the canonical key ab is a strict prefix of the previously inserted canonical
key abc. The code instead answers (nil, false): insertInternal only marks a
node terminal when it freshly creates it, so the pre-existing interior node
for ab never receives its word. -/
theorem C1_insert_strict_prefix_not_found :
    prefixTrie.FindMeta asciiCtx (goStr "ab") = (none, false) := by decide

/-- C2: the same two inserts leave the registry/terminal-node invariant
broken: the canonical key ab has a non-empty originalDict entry, yet no node
reachable by its code points stores the word ab. -/
theorem C2_registry_terminal_invariant_broken :
    mapGet prefixTrie.originalDict (goStr "ab") = some [goStr "ab"] ∧
    hasTerminal prefixTrie (goStr "ab") = false := by decide

/-- C3 counterexample: with originals A and B (canonical keys a and b) under
the default configuration, Search("a", 1) triggers the limit truncation and
returns the canonical key a itself, not the original surface form A that the
registry holds for it — contradicting the claim that surviving canonical
hits are expanded to original strings whenever normalisation or
case-insensitivity is enabled. -/
theorem C3_truncation_skips_expansion :
    abTrie.Search asciiCtx (goStr "a") 1 = [goStr "a"] ∧
    mapGet abTrie.originalDict (goStr "a") = some [goStr "A"] ∧
    goStr "a" ≠ goStr "A" := by decide

/-- C3 amended: when a positive limit is given and the number of distinct
canonical hits after sorting is at least the limit, Search returns exactly
the first limit sorted canonical hits directly — the registry expansion step
is skipped entirely on this path. -/
theorem C3_limit_truncates_canonical_hits {μ : Type} (ctx : Ctx) (t : Trie μ)
    (q s2 : GoStr) (limit : Nat) (hq : q.isEmpty = false)
    (hc : searchCanonical ctx t q = some s2) (hl : limit ≠ 0)
    (hlen : limit ≤ (t.sortedHits s2 limit).length) :
    t.Search ctx q limit = (t.sortedHits s2 limit).take limit ∧
    (t.Search ctx q limit).length = limit := by
  have hmain : t.Search ctx q limit = (t.sortedHits s2 limit).take limit := by
    unfold Trie.Search
    rw [hq, hc]
    simp only [hl, hlen]
    simp
    exact fun h => absurd h hl
  refine ⟨hmain, ?_⟩
  rw [hmain, List.length_take]
  omega

/-- C3 witness: the amended truncation behaviour at the concrete input of
the counterexample. -/
theorem C3_limit_truncates_witness :
    (goStr "a").isEmpty = false ∧
    searchCanonical asciiCtx abTrie (goStr "a") = some (goStr "a") ∧
    1 ≤ (abTrie.sortedHits (goStr "a") 1).length ∧
    abTrie.Search asciiCtx (goStr "a") 1 = (abTrie.sortedHits (goStr "a") 1).take 1 :=
  ⟨by decide, by decide, by decide,
    (C3_limit_truncates_canonical_hits asciiCtx abTrie (goStr "a") (goStr "a") 1
      (by decide) (by decide) (by decide) (by decide)).1⟩

/-- C4 counterexample: the non-empty query consisting of the single
combining diaeresis U+0308 canonicalises to the empty string under the
default configuration, yet SearchAll does not return the empty sequence —
the empty-query short-circuit tests the raw query only, and an empty
canonical query then sweeps up every word in the trie. -/
theorem C4_empty_canonical_query_not_short_circuited :
    searchCanonical asciiCtx monTrie [0x308] = some [] ∧
    monTrie.SearchAll asciiCtx [0x308] = [goStr "Monday"] := by decide

/-- C4 amended: for every configuration and metadata type, the empty query
string itself yields an empty result from Search, SearchAll and
SearchAllMeta; this does not extend to non-empty queries whose canonical
form is empty. -/
theorem C4_empty_query_empty_result {μ : Type} (ctx : Ctx) (t : Trie μ) (limit : Nat) :
    t.Search ctx [] limit = [] ∧ t.SearchAll ctx [] = [] ∧ t.SearchAllMeta ctx [] = [] :=
  ⟨rfl, rfl, rfl⟩

/-- C5: on the seven-weekday dictionary under the default configuration,
SearchAll("wdn") is exactly [Wednesday], and SearchAll("tsd") is exactly
[Thursday, Tuesday, Wednesday] — the hits ordered by ascending edit
distance, then exact-path before fuzzy-relaxed, then lexicographically. -/
theorem C5_weekday_searches :
    dayTrie.SearchAll asciiCtx (goStr "wdn") = [goStr "Wednesday"] ∧
    dayTrie.SearchAll asciiCtx (goStr "tsd") =
      [goStr "Thursday", goStr "Tuesday", goStr "Wednesday"] := by decide

/-- C8: InsertWithMeta (hence Insert) is a no-op on empty input, and when
normalisation is on and the transform fails on the entry, the insert is
dropped with no change at all to the trie or the registry. -/
theorem C8_insert_noop_on_empty_or_failure {μ : Type} (ctx : Ctx) (t : Trie μ)
    (entry : GoStr) (meta : Option μ) :
    t.InsertWithMeta ctx [] meta = t ∧
    (t.normalised = true → ctx.tf entry = none → t.InsertWithMeta ctx entry meta = t) := by
  constructor
  · rfl
  · intro hn htf
    unfold Trie.InsertWithMeta Trie.insertInternal
    cases entry with
    | nil => simp
    | cons c rest =>
      rw [hn]
      cases t.caseSensitive <;> simp [htf]

/-- C8 witness: a concrete always-failing transform context on a fresh
default trie, at the non-empty entry a. -/
theorem C8_insert_noop_witness :
    (New (μ := Nat)).InsertWithMeta ⟨fun _ => none, id⟩ [] none = New ∧
    (New (μ := Nat)).normalised = true ∧
    (New (μ := Nat)).InsertWithMeta ⟨fun _ => none, id⟩ (goStr "a") none = New :=
  ⟨(C8_insert_noop_on_empty_or_failure ⟨fun _ => none, id⟩ New (goStr "a") none).1, rfl,
    (C8_insert_noop_on_empty_or_failure ⟨fun _ => none, id⟩ New (goStr "a") none).2 rfl rfl⟩

/-- Every member is below the running maximum. -/
theorem le_foldr_max {x : Nat} : ∀ {l : List Nat}, x ∈ l → x ≤ l.foldr max 0
  | a :: rest, h => by
    rcases List.mem_cons.mp h with h1 | h2
    · simp [h1, Nat.le_max_left]
    · exact Nat.le_trans (le_foldr_max h2) (Nat.le_max_right _ _)

/-- The running maximum is below any upper bound of the members. -/
theorem foldr_max_le {a : Nat} : ∀ (l : List Nat), (∀ x ∈ l, x ≤ a) → l.foldr max 0 ≤ a
  | [], _ => Nat.zero_le a
  | b :: rest, h => by
    simp only [List.foldr_cons]
    exact Nat.max_le.mpr ⟨h b (by simp), foldr_max_le rest (fun x hx => h x (by simp [hx]))⟩

/-- largestLE only depends on which thresholds occur. -/
theorem largestLE_congr {l1 l2 : List Nat} (n : Nat) (h : ∀ x, x ∈ l1 ↔ x ∈ l2) :
    largestLE l1 n = largestLE l2 n := by
  have key : ∀ (a b : List Nat), (∀ x, x ∈ a ↔ x ∈ b) →
      largestLE a n ≤ largestLE b n := by
    intro a b hab
    unfold largestLE
    refine foldr_max_le _ (fun x hx => ?_)
    have hx2 := List.mem_filter.mp hx
    exact le_foldr_max (List.mem_filter.mpr ⟨(hab x).mp hx2.1, hx2.2⟩)
  exact Nat.le_antisymm (key l1 l2 h) (key l2 l1 (fun x => (h x).symm))

/-- On a descending-sorted interval list containing some threshold within
range, the interval scan of maxDistance selects exactly the largest
threshold not exceeding the length. -/
theorem maxDistanceAux_sorted (scheme : List (Nat × Nat)) (n : Nat) :
    ∀ l : List Nat, l.Sorted (fun a b => a ≥ b) → (∃ x, x ∈ l ∧ x ≤ n) →
      maxDistanceAux scheme n l = (mapGet scheme (largestLE l n)).getD 0
  | [], _, hex => absurd hex.choose_spec.1 (List.not_mem_nil hex.choose)
  | a :: rest, hs, hex => by
    by_cases ha : a ≤ n
    · have hall : ∀ x ∈ rest, x ≤ a := fun x hx => List.rel_of_sorted_cons hs x hx
      have hfle : (rest.filter (fun k => decide (k ≤ n))).foldr max 0 ≤ a :=
        foldr_max_le _ (fun x hx => hall x (List.mem_of_mem_filter hx))
      have h1 : largestLE (a :: rest) n = a := by
        unfold largestLE
        simp only [List.filter_cons, decide_eq_true_eq, ha, if_pos, List.foldr_cons]
        exact Nat.max_eq_left hfle
      unfold maxDistanceAux
      simp [ha, h1]
    · have hex2 : ∃ x, x ∈ rest ∧ x ≤ n := by
        obtain ⟨x, hx, hxn⟩ := hex
        rcases List.mem_cons.mp hx with h1 | h2
        · exact absurd (h1 ▸ hxn) ha
        · exact ⟨x, h2, hxn⟩
      have h1 : largestLE (a :: rest) n = largestLE rest n := by
        unfold largestLE
        simp [List.filter_cons, ha]
      unfold maxDistanceAux
      simp only [ha, if_neg, if_false]
      rw [h1]
      exact maxDistanceAux_sorted scheme n rest hs.of_cons hex2

/-- A successful map lookup means the key occurs among the keys. -/
theorem mapGet_mem_keys {α β : Type} [DecidableEq α] {a : α} :
    ∀ {l : List (α × β)}, (mapGet l a).isSome = true → a ∈ l.map Prod.fst
  | [], h => by simp [mapGet] at h
  | (k, v) :: rest, h => by
    by_cases hk : k = a
    · simp [hk]
    · refine List.mem_cons_of_mem _ (mapGet_mem_keys ?_)
      simpa [mapGet, hk] using h

/-- C7: the maximum edit distance used by a search is the scheme value of
the largest threshold that does not exceed the query's code-point length:
for any custom scheme with a length-0 entry installed by CustomLevenshtein,
and in particular for the default schedule (0 for lengths up to 2, 1 for
lengths 3-4, 2 from length 5) and the zero-tolerance schedule. -/
theorem C7_max_distance_schedule {μ : Type} (t : Trie μ) (scheme : List (Nat × Nat))
    (q : GoStr) :
    ((mapGet scheme 0).isSome = true →
      (t.CustomLevenshtein scheme).map (fun t2 => t2.maxDistance q) =
        some ((mapGet scheme (largestLE (scheme.map Prod.fst) q.length)).getD 0)) ∧
    t.DefaultLevenshtein.maxDistance q =
      (if 5 ≤ q.length then 2 else if 3 ≤ q.length then 1 else 0) ∧
    t.WithoutLevenshtein.maxDistance q = 0 := by
  refine ⟨?_, ?_, ?_⟩
  · intro h
    obtain ⟨v, hv⟩ := Option.isSome_iff_exists.mp h
    unfold Trie.CustomLevenshtein
    rw [hv]
    simp only [Option.map_some']
    unfold Trie.maxDistance
    simp only
    have hsorted : (List.insertionSort (fun a b => a ≥ b) (scheme.map Prod.fst)).Sorted
        (fun a b => a ≥ b) := List.sorted_insertionSort _ _
    have hmem : (0 : Nat) ∈ List.insertionSort (fun a b => a ≥ b) (scheme.map Prod.fst) := by
      rw [List.mem_insertionSort]
      exact mapGet_mem_keys (by simp [hv])
    rw [maxDistanceAux_sorted scheme q.length _ hsorted ⟨0, hmem, Nat.zero_le _⟩]
    rw [largestLE_congr q.length (fun x => List.mem_insertionSort _)]
  · unfold Trie.DefaultLevenshtein Trie.maxDistance
    by_cases h5 : 5 ≤ q.length
    · simp [maxDistanceAux, mapGet, h5]
    · by_cases h3 : 3 ≤ q.length
      · simp [maxDistanceAux, mapGet, h5, h3]
      · simp [maxDistanceAux, mapGet, h5, h3]
  · unfold Trie.WithoutLevenshtein Trie.maxDistance
    simp [maxDistanceAux, mapGet]

/-- C7 witness: a custom scheme with thresholds 0 and 4 on a five-rune
query selects the value at threshold 4. -/
theorem C7_max_distance_witness :
    (mapGet ([(0, 1), (4, 7)] : List (Nat × Nat)) 0).isSome = true ∧
    ((New (μ := Nat)).CustomLevenshtein [(0, 1), (4, 7)]).map
        (fun t2 => t2.maxDistance (goStr "abcde")) =
      some ((mapGet ([(0, 1), (4, 7)] : List (Nat × Nat))
        (largestLE (([(0, 1), (4, 7)] : List (Nat × Nat)).map Prod.fst)
          (goStr "abcde").length)).getD 0) :=
  ⟨by decide,
    (C7_max_distance_schedule New [(0, 1), (4, 7)] (goStr "abcde")).1 (by decide)⟩

/-- C9: CustomLevenshtein aborts (models the panic) exactly when the scheme
has no entry keyed at length 0; with the 0 entry present, installation
returns the configured trie. -/
theorem C9_custom_scheme_panics_iff_no_zero {μ : Type} (t : Trie μ)
    (scheme : List (Nat × Nat)) :
    t.CustomLevenshtein scheme = none ↔ mapGet scheme 0 = none := by
  unfold Trie.CustomLevenshtein
  cases h : mapGet scheme 0 <;> simp

/-- A successful child lookup is a member of the children map. -/
theorem find_mem {μ : Type} :
    ∀ {cs : ChildList μ} {c : Rune} {next : Node μ},
      cs.find c = some next → (c, next) ∈ cs.toList
  | .cons k nd rest, c, next, h => by
    simp only [ChildList.find] at h
    by_cases hk : k = c
    · rw [if_pos hk] at h
      subst hk
      cases h
      simp [ChildList.toList]
    · rw [if_neg hk] at h
      exact List.mem_cons_of_mem _ (find_mem h)

/-- Every child subtree fits under the children-map height. -/
theorem height_le_of_mem {μ : Type} :
    ∀ {cs : ChildList μ} {c : Rune} {next : Node μ},
      (c, next) ∈ cs.toList → next.height ≤ cs.heightList
  | .cons r (.mk cs2 w2 m2) rest, c, next, h => by
    simp only [ChildList.toList, List.mem_cons] at h
    rcases h with h1 | h2
    · injection h1 with hc hn
      subst hn
      simp only [Node.height, Node.children, ChildList.heightList]
      exact Nat.le_max_left _ _
    · exact Nat.le_trans (height_le_of_mem h2)
        (by simp only [ChildList.heightList]; exact Nat.le_max_right _ _)

/-- The descendant sweep succeeds whenever the fuel covers the height of
the children map. -/
theorem descendLoop_isSome {μ : Type} :
    ∀ (fuel : Nat) (cs : ChildList μ) (col : Col) (d : Nat) (fu : Bool),
      cs.heightList ≤ fuel → (descendLoop fuel cs col d fu).isSome = true
  | _, .nil, _, _, _, _ => by simp [descendLoop]
  | fuel, .cons r (.mk cs2 w2 m2) rest, col, d, fu, h => by
    have hh : max (1 + cs2.heightList) rest.heightList ≤ fuel := by
      simpa [ChildList.heightList] using h
    have h1 : 1 + cs2.heightList ≤ fuel := Nat.le_trans (Nat.le_max_left _ _) hh
    have h2 : rest.heightList ≤ fuel := Nat.le_trans (Nat.le_max_right _ _) hh
    cases fuel with
    | zero => omega
    | succ f =>
      simp only [descendLoop]
      obtain ⟨col2, hc2⟩ := Option.isSome_iff_exists.mp
        (descendLoop_isSome f cs2 _ d fu (by omega))
      rw [hc2, Option.some_bind]
      exact descendLoop_isSome (f + 1) rest col2 d fu (by omega)

/-- The meta descendant sweep succeeds under the same fuel. -/
theorem mdescendLoop_isSome {μ : Type} :
    ∀ (fuel : Nat) (cs : ChildList μ) (mcol : MCol μ) (d : Nat) (fu : Bool),
      cs.heightList ≤ fuel → (mdescendLoop fuel cs mcol d fu).isSome = true
  | _, .nil, _, _, _, _ => by simp [mdescendLoop]
  | fuel, .cons r (.mk cs2 w2 m2) rest, mcol, d, fu, h => by
    have hh : max (1 + cs2.heightList) rest.heightList ≤ fuel := by
      simpa [ChildList.heightList] using h
    have h1 : 1 + cs2.heightList ≤ fuel := Nat.le_trans (Nat.le_max_left _ _) hh
    have h2 : rest.heightList ≤ fuel := Nat.le_trans (Nat.le_max_right _ _) hh
    cases fuel with
    | zero => omega
    | succ f =>
      simp only [mdescendLoop]
      obtain ⟨mcol2, hc2⟩ := Option.isSome_iff_exists.mp
        (mdescendLoop_isSome f cs2 _ d fu (by omega))
      rw [hc2, Option.some_bind]
      exact mdescendLoop_isSome (f + 1) rest mcol2 d fu (by omega)

/-- The edit-operations loop succeeds when each per-child call does. -/
theorem editLoop_isSome {μ : Type}
    (f : Col → GoStr → Node μ → Nat → Bool → Bool → Option Col)
    (word subword : GoStr) (n : Node μ) (d1 : Nat) (fa fu : Bool) :
    ∀ (cs : ChildList μ) (col : Col),
      (∀ c next, (c, next) ∈ cs.toList →
        (∀ col0, (f col0 (c :: subword) n d1 false fu).isSome = true) ∧
        (∀ col0, (f col0 (c :: word) n d1 false fu).isSome = true) ∧
        (∀ col0, (f col0 word next (d1 - 1) true true).isSome = true)) →
      (editLoop f word subword n d1 fa fu cs col).isSome = true
  | .nil, col, _ => by simp [editLoop]
  | .cons c next rest, col, h => by
    have hc := h c next (by simp [ChildList.toList])
    simp only [editLoop]
    obtain ⟨col1, h1⟩ := Option.isSome_iff_exists.mp (hc.1 col)
    rw [h1, Option.some_bind]
    obtain ⟨col2, h2⟩ := Option.isSome_iff_exists.mp (hc.2.1 col1)
    rw [h2, Option.some_bind]
    have h3 : (if fa then f col2 word next (d1 - 1) true true else some col2).isSome = true := by
      cases fa
      · simp
      · simpa using hc.2.2 col2
    obtain ⟨col3, h3e⟩ := Option.isSome_iff_exists.mp h3
    rw [h3e, Option.some_bind]
    exact editLoop_isSome f word subword n d1 fa fu rest col3
      (fun c2 n2 hm => h c2 n2 (List.mem_cons_of_mem _ hm))

/-- The exhausted-budget fuzzy loop succeeds when each per-child call does. -/
theorem fuzzyLoop_isSome {μ : Type}
    (f : Col → GoStr → Node μ → Nat → Bool → Bool → Option Col)
    (word : GoStr) (d : Nat) (fa : Bool) :
    ∀ (cs : ChildList μ) (col : Col),
      (∀ c next, (c, next) ∈ cs.toList →
        ∀ col0, (f col0 word next d true true).isSome = true) →
      (fuzzyLoop f word d fa cs col).isSome = true
  | .nil, col, _ => by simp [fuzzyLoop]
  | .cons c next rest, col, h => by
    simp only [fuzzyLoop]
    have h3 : (if fa then f col word next d true true else some col).isSome = true := by
      cases fa
      · simp
      · simpa using h c next (by simp [ChildList.toList]) col
    obtain ⟨col1, h1⟩ := Option.isSome_iff_exists.mp h3
    rw [h1, Option.some_bind]
    exact fuzzyLoop_isSome f word d fa rest col1
      (fun c2 n2 hm => h c2 n2 (List.mem_cons_of_mem _ hm))

/-- Projection commutes with map lookup. -/
theorem mapGet_projCol {μ : Type} (w : GoStr) :
    ∀ mcol : MCol μ, mapGet (projCol mcol) w = (mapGet mcol w).map MatchScore.score
  | [] => rfl
  | (k, ms) :: rest => by
    by_cases hk : k = w
    · simp [projCol, mapGet, hk]
    · simpa [projCol, mapGet, hk] using mapGet_projCol w rest

/-- Projection commutes with map assignment. -/
theorem projCol_mapSet {μ : Type} (w : GoStr) (ms : MatchScore μ) :
    ∀ mcol : MCol μ, projCol (mapSet mcol w ms) = mapSet (projCol mcol) w ms.score
  | [] => rfl
  | (k, ms2) :: rest => by
    by_cases hk : k = w
    · simp [projCol, mapSet, hk]
    · simpa [projCol, mapSet, hk] using projCol_mapSet w ms rest

/-- Projection commutes with the best-score update: the meta update decides
on exactly the score part the plain update decides on. -/
theorem projCol_mscoreUpdate {μ : Type} (mcol : MCol μ) (w : GoStr) (d : Nat)
    (fu : Bool) (m : Option μ) :
    projCol (mscoreUpdate mcol w d fu m) = scoreUpdate (projCol mcol) w d fu := by
  unfold mscoreUpdate scoreUpdate
  rw [mapGet_projCol]
  cases hget : mapGet mcol w with
  | none => simp [projCol_mapSet]
  | some prev =>
    simp only [Option.map_some']
    by_cases hcond : d < prev.score.levenshtein ∨
        (d = prev.score.levenshtein ∧ prev.score.fuzzy = true ∧ fu = false)
    · rw [if_pos hcond, if_pos hcond]
      exact projCol_mapSet w _ mcol
    · rw [if_neg hcond, if_neg hcond]

/-- Projection commutes with the descendant sweep. -/
theorem mdescendLoop_proj {μ : Type} :
    ∀ (fuel : Nat) (cs : ChildList μ) (mcol : MCol μ) (d : Nat) (fu : Bool),
      (mdescendLoop fuel cs mcol d fu).map projCol = descendLoop fuel cs (projCol mcol) d fu
  | fuel, .nil, mcol, d, fu => by simp [mdescendLoop, descendLoop]
  | fuel, .cons r (.mk cs2 w2 m2) rest, mcol, d, fu => by
    simp only [mdescendLoop, descendLoop]
    have hcol1 : projCol (if w2.isEmpty then mcol else mscoreUpdate mcol w2 d fu m2) =
        (if w2.isEmpty then projCol mcol else scoreUpdate (projCol mcol) w2 d fu) := by
      cases w2.isEmpty
      · simp [projCol_mscoreUpdate]
      · simp
    cases fuel with
    | zero => simp
    | succ f =>
      simp only
      cases hm1 : mdescendLoop f cs2 (if w2.isEmpty then mcol else mscoreUpdate mcol w2 d fu m2) d fu with
      | none =>
        have hplain : descendLoop f cs2
            (if w2.isEmpty then projCol mcol else scoreUpdate (projCol mcol) w2 d fu) d fu = none := by
          rw [← hcol1, ← mdescendLoop_proj, hm1]
          rfl
        rw [hplain]
        simp
      | some mcol2 =>
        have hplain : descendLoop f cs2
            (if w2.isEmpty then projCol mcol else scoreUpdate (projCol mcol) w2 d fu) d fu =
            some (projCol mcol2) := by
          rw [← hcol1, ← mdescendLoop_proj, hm1]
          rfl
        rw [hplain, Option.some_bind, Option.some_bind]
        exact mdescendLoop_proj (f + 1) rest mcol2 d fu

/-- Projection carries through the edit-operations loop. -/
theorem meditLoop_proj {μ : Type}
    (f : Col → GoStr → Node μ → Nat → Bool → Bool → Option Col)
    (fM : MCol μ → GoStr → Node μ → Nat → Bool → Bool → Option (MCol μ))
    (hproj : ∀ mcol0 w2 nd d2 a u, (fM mcol0 w2 nd d2 a u).map projCol = f (projCol mcol0) w2 nd d2 a u)
    (word subword : GoStr) (n : Node μ) (d1 : Nat) (fa fu : Bool) :
    ∀ (cs : ChildList μ) (mcol : MCol μ),
      (meditLoop fM word subword n d1 fa fu cs mcol).map projCol =
        editLoop f word subword n d1 fa fu cs (projCol mcol)
  | .nil, mcol => by simp [meditLoop, editLoop]
  | .cons c next rest, mcol => by
    simp only [meditLoop, editLoop]
    cases hm1 : fM mcol (c :: subword) n d1 false fu with
    | none =>
      have hp : f (projCol mcol) (c :: subword) n d1 false fu = none := by
        rw [← hproj, hm1]; rfl
      rw [hp]
      simp
    | some mcol1 =>
      have hp : f (projCol mcol) (c :: subword) n d1 false fu = some (projCol mcol1) := by
        rw [← hproj, hm1]; rfl
      rw [hp, Option.some_bind, Option.some_bind]
      cases hm2 : fM mcol1 (c :: word) n d1 false fu with
      | none =>
        have hp2 : f (projCol mcol1) (c :: word) n d1 false fu = none := by
          rw [← hproj, hm2]; rfl
        rw [hp2]
        simp
      | some mcol2 =>
        have hp2 : f (projCol mcol1) (c :: word) n d1 false fu = some (projCol mcol2) := by
          rw [← hproj, hm2]; rfl
        rw [hp2, Option.some_bind, Option.some_bind]
        cases hfa : fa with
        | false =>
          simp only [Bool.false_eq_true, if_false, Option.some_bind]
          exact meditLoop_proj f fM hproj word subword n d1 false fu rest mcol2
        | true =>
          simp only [if_true]
          cases hm3 : fM mcol2 word next (d1 - 1) true true with
          | none =>
            have hp3 : f (projCol mcol2) word next (d1 - 1) true true = none := by
              rw [← hproj, hm3]; rfl
            rw [hp3]
            simp
          | some mcol3 =>
            have hp3 : f (projCol mcol2) word next (d1 - 1) true true = some (projCol mcol3) := by
              rw [← hproj, hm3]; rfl
            rw [hp3, Option.some_bind, Option.some_bind]
            exact meditLoop_proj f fM hproj word subword n d1 true fu rest mcol3

/-- Projection carries through the exhausted-budget loop. -/
theorem mfuzzyLoop_proj {μ : Type}
    (f : Col → GoStr → Node μ → Nat → Bool → Bool → Option Col)
    (fM : MCol μ → GoStr → Node μ → Nat → Bool → Bool → Option (MCol μ))
    (hproj : ∀ mcol0 w2 nd d2 a u, (fM mcol0 w2 nd d2 a u).map projCol = f (projCol mcol0) w2 nd d2 a u)
    (word : GoStr) (d : Nat) (fa : Bool) :
    ∀ (cs : ChildList μ) (mcol : MCol μ),
      (mfuzzyLoop fM word d fa cs mcol).map projCol =
        fuzzyLoop f word d fa cs (projCol mcol)
  | .nil, mcol => by simp [mfuzzyLoop, fuzzyLoop]
  | .cons c next rest, mcol => by
    simp only [mfuzzyLoop, fuzzyLoop]
    cases hfa : fa with
    | false =>
      simp only [Bool.false_eq_true, if_false, Option.some_bind]
      exact mfuzzyLoop_proj f fM hproj word d false rest mcol
    | true =>
      simp only [if_true]
      cases hm1 : fM mcol word next d true true with
      | none =>
        have hp : f (projCol mcol) word next d true true = none := by
          rw [← hproj, hm1]; rfl
        rw [hp]
        simp
      | some mcol1 =>
        have hp : f (projCol mcol) word next d true true = some (projCol mcol1) := by
          rw [← hproj, hm1]; rfl
        rw [hp, Option.some_bind, Option.some_bind]
        exact mfuzzyLoop_proj f fM hproj word d true rest mcol1

/-- collectMeta is collect carrying metadata: projecting the metadata away
from its collection at any fuel yields exactly the collect computation. -/
theorem collectMetaFuel_proj {μ : Type} :
    ∀ (fuel : Nat) (mcol : MCol μ) (word : GoStr) (n : Node μ) (d md l : Nat) (fa fu : Bool),
      (collectMetaFuel fuel mcol word n d md l fa fu).map projCol =
        collectFuel fuel (projCol mcol) word n d md l fa fu
  | 0, _, _, _, _, _, _, _, _ => rfl
  | fuel + 1, mcol, [], .mk cs w m, d, md, l, fa, fu => by
    simp only [collectMetaFuel, collectFuel, Node.word, Node.children, Node.meta,
      List.isEmpty_nil, Bool.true_and]
    cases hw : w.isEmpty with
    | false =>
      simp only [hw, Bool.not_false, if_true]
      have h0 := mdescendLoop_proj fuel cs (mscoreUpdate mcol w d fu m) d fu
      rw [projCol_mscoreUpdate] at h0
      exact h0
    | true =>
      simp only [hw, Bool.not_true, if_false, Bool.false_eq_true, if_true]
      cases hm1 : mdescendLoop fuel cs mcol d fu with
      | none =>
        have hp1 : descendLoop fuel cs (projCol mcol) d fu = none := by
          rw [← mdescendLoop_proj, hm1]; rfl
        rw [hp1]
        rfl
      | some mcol1 =>
        have hp1 : descendLoop fuel cs (projCol mcol) d fu = some (projCol mcol1) := by
          rw [← mdescendLoop_proj, hm1]; rfl
        rw [hp1]
        simp only [Option.some_bind]
        have hstar : ¬(runeError = starRune) := by decide
        rw [if_neg hstar, if_neg hstar, Option.some_bind, Option.some_bind]
        cases hfind : cs.find runeError with
        | none =>
          simp only [Option.some_bind]
          by_cases hdm : d < md
          · rw [if_pos hdm, if_pos hdm]
            cases hm4 : meditLoop
                (fun c2 w2 nd d2 a u => collectMetaFuel fuel c2 w2 nd d2 md l a u)
                [] [] (.mk cs w m) (d + 1) fa fu cs mcol1 with
            | none =>
              have hp4 : editLoop
                  (fun c2 w2 nd d2 a u => collectFuel fuel c2 w2 nd d2 md l a u)
                  [] [] (.mk cs w m) (d + 1) fa fu cs (projCol mcol1) = none := by
                rw [← meditLoop_proj _ _
                  (fun mc w2 nd d2 a u => collectMetaFuel_proj fuel mc w2 nd d2 md l a u), hm4]
                rfl
              rw [hp4]
              rfl
            | some mcol4 =>
              have hp4 : editLoop
                  (fun c2 w2 nd d2 a u => collectFuel fuel c2 w2 nd d2 md l a u)
                  [] [] (.mk cs w m) (d + 1) fa fu cs (projCol mcol1) = some (projCol mcol4) := by
                rw [← meditLoop_proj _ _
                  (fun mc w2 nd d2 a u => collectMetaFuel_proj fuel mc w2 nd d2 md l a u), hm4]
                rfl
              rw [hp4]
              simp only [Option.some_bind]
              exact collectMetaFuel_proj fuel mcol4 [] (.mk cs w m) (d + 1) md l false false
          · rw [if_neg hdm, if_neg hdm]
            by_cases hd0 : d = 0
            · rw [if_pos hd0, if_pos hd0]
              exact mfuzzyLoop_proj _ _
                (fun mc w2 nd d2 a u => collectMetaFuel_proj fuel mc w2 nd d2 md l a u)
                [] d fa cs mcol1
            · rw [if_neg hd0, if_neg hd0]
              rfl
        | some next =>
          simp only
          cases hm2 : collectMetaFuel fuel mcol1 [] next d md l false fu with
          | none =>
            have hp2 : collectFuel fuel (projCol mcol1) [] next d md l false fu = none := by
              rw [← collectMetaFuel_proj, hm2]; rfl
            rw [hp2]
            rfl
          | some mcol3 =>
            have hp2 : collectFuel fuel (projCol mcol1) [] next d md l false fu =
                some (projCol mcol3) := by
              rw [← collectMetaFuel_proj, hm2]; rfl
            rw [hp2, Option.some_bind, Option.some_bind]
            by_cases hdm : d < md
            · rw [if_pos hdm, if_pos hdm]
              cases hm4 : meditLoop
                  (fun c2 w2 nd d2 a u => collectMetaFuel fuel c2 w2 nd d2 md l a u)
                  [] [] (.mk cs w m) (d + 1) fa fu cs mcol3 with
              | none =>
                have hp4 : editLoop
                    (fun c2 w2 nd d2 a u => collectFuel fuel c2 w2 nd d2 md l a u)
                    [] [] (.mk cs w m) (d + 1) fa fu cs (projCol mcol3) = none := by
                  rw [← meditLoop_proj _ _
                    (fun mc w2 nd d2 a u => collectMetaFuel_proj fuel mc w2 nd d2 md l a u), hm4]
                  rfl
                rw [hp4]
                rfl
              | some mcol4 =>
                have hp4 : editLoop
                    (fun c2 w2 nd d2 a u => collectFuel fuel c2 w2 nd d2 md l a u)
                    [] [] (.mk cs w m) (d + 1) fa fu cs (projCol mcol3) = some (projCol mcol4) := by
                  rw [← meditLoop_proj _ _
                    (fun mc w2 nd d2 a u => collectMetaFuel_proj fuel mc w2 nd d2 md l a u), hm4]
                  rfl
                rw [hp4]
                simp only [Option.some_bind]
                exact collectMetaFuel_proj fuel mcol4 [] (.mk cs w m) (d + 1) md l false false
            · rw [if_neg hdm, if_neg hdm]
              by_cases hd0 : d = 0
              · rw [if_pos hd0, if_pos hd0]
                exact mfuzzyLoop_proj _ _
                  (fun mc w2 nd d2 a u => collectMetaFuel_proj fuel mc w2 nd d2 md l a u)
                  [] d fa cs mcol3
              · rw [if_neg hd0, if_neg hd0]
                rfl
  | fuel + 1, mcol, c :: rest, .mk cs w m, d, md, l, fa, fu => by
    simp only [collectMetaFuel, collectFuel, Node.word, Node.children, Node.meta,
      List.isEmpty_cons, Bool.false_and, Bool.false_eq_true, if_false, Option.some_bind]
    have hstage2 :
        ((if c = starRune then collectMetaFuel fuel mcol rest (.mk cs w m) d md l false fu
          else some mcol)).map projCol =
        (if c = starRune then collectFuel fuel (projCol mcol) rest (.mk cs w m) d md l false fu
          else some (projCol mcol)) := by
      by_cases hstar : c = starRune
      · rw [if_pos hstar, if_pos hstar]
        exact collectMetaFuel_proj fuel mcol rest (.mk cs w m) d md l false fu
      · rw [if_neg hstar, if_neg hstar]
        rfl
    cases hm1 : (if c = starRune then collectMetaFuel fuel mcol rest (.mk cs w m) d md l false fu
        else some mcol) with
    | none =>
      rw [hm1] at hstage2
      rw [← hstage2]
      rfl
    | some mcol2 =>
      rw [hm1] at hstage2
      rw [← hstage2]
      simp only [Option.map_some', Option.some_bind]
      cases hfind : cs.find c with
      | none =>
        simp only [Option.some_bind]
        by_cases hdm : d < md
        · rw [if_pos hdm, if_pos hdm]
          cases hm4 : meditLoop
              (fun c2 w2 nd d2 a u => collectMetaFuel fuel c2 w2 nd d2 md l a u)
              (c :: rest) rest (.mk cs w m) (d + 1) fa fu cs mcol2 with
          | none =>
            have hp4 : editLoop
                (fun c2 w2 nd d2 a u => collectFuel fuel c2 w2 nd d2 md l a u)
                (c :: rest) rest (.mk cs w m) (d + 1) fa fu cs (projCol mcol2) = none := by
              rw [← meditLoop_proj _ _
                (fun mc w2 nd d2 a u => collectMetaFuel_proj fuel mc w2 nd d2 md l a u), hm4]
              rfl
            rw [hp4]
            rfl
          | some mcol4 =>
            have hp4 : editLoop
                (fun c2 w2 nd d2 a u => collectFuel fuel c2 w2 nd d2 md l a u)
                (c :: rest) rest (.mk cs w m) (d + 1) fa fu cs (projCol mcol2) =
                some (projCol mcol4) := by
              rw [← meditLoop_proj _ _
                (fun mc w2 nd d2 a u => collectMetaFuel_proj fuel mc w2 nd d2 md l a u), hm4]
              rfl
            rw [hp4]
            simp only [Option.some_bind]
            exact collectMetaFuel_proj fuel mcol4 rest (.mk cs w m) (d + 1) md l false false
        · rw [if_neg hdm, if_neg hdm]
          by_cases hd0 : d = 0
          · rw [if_pos hd0, if_pos hd0]
            exact mfuzzyLoop_proj _ _
              (fun mc w2 nd d2 a u => collectMetaFuel_proj fuel mc w2 nd d2 md l a u)
              (c :: rest) d fa cs mcol2
          · rw [if_neg hd0, if_neg hd0]
            rfl
      | some next =>
        simp only
        cases hm2 : collectMetaFuel fuel mcol2 rest next d md l false fu with
        | none =>
          have hp2 : collectFuel fuel (projCol mcol2) rest next d md l false fu = none := by
            rw [← collectMetaFuel_proj, hm2]; rfl
          rw [hp2]
          rfl
        | some mcol3 =>
          have hp2 : collectFuel fuel (projCol mcol2) rest next d md l false fu =
              some (projCol mcol3) := by
            rw [← collectMetaFuel_proj, hm2]; rfl
          rw [hp2, Option.some_bind, Option.some_bind]
          by_cases hdm : d < md
          · rw [if_pos hdm, if_pos hdm]
            cases hm4 : meditLoop
                (fun c2 w2 nd d2 a u => collectMetaFuel fuel c2 w2 nd d2 md l a u)
                (c :: rest) rest (.mk cs w m) (d + 1) fa fu cs mcol3 with
            | none =>
              have hp4 : editLoop
                  (fun c2 w2 nd d2 a u => collectFuel fuel c2 w2 nd d2 md l a u)
                  (c :: rest) rest (.mk cs w m) (d + 1) fa fu cs (projCol mcol3) = none := by
                rw [← meditLoop_proj _ _
                  (fun mc w2 nd d2 a u => collectMetaFuel_proj fuel mc w2 nd d2 md l a u), hm4]
                rfl
              rw [hp4]
              rfl
            | some mcol4 =>
              have hp4 : editLoop
                  (fun c2 w2 nd d2 a u => collectFuel fuel c2 w2 nd d2 md l a u)
                  (c :: rest) rest (.mk cs w m) (d + 1) fa fu cs (projCol mcol3) =
                  some (projCol mcol4) := by
                rw [← meditLoop_proj _ _
                  (fun mc w2 nd d2 a u => collectMetaFuel_proj fuel mc w2 nd d2 md l a u), hm4]
                rfl
              rw [hp4]
              simp only [Option.some_bind]
              exact collectMetaFuel_proj fuel mcol4 rest (.mk cs w m) (d + 1) md l false false
          · rw [if_neg hdm, if_neg hdm]
            by_cases hd0 : d = 0
            · rw [if_pos hd0, if_pos hd0]
              exact mfuzzyLoop_proj _ _
                (fun mc w2 nd d2 a u => collectMetaFuel_proj fuel mc w2 nd d2 md l a u)
                (c :: rest) d fa cs mcol3
            · rw [if_neg hd0, if_neg hd0]
              rfl

/-- collect always terminates within the collectBound fuel: twice the
remaining edit budget plus the node height plus the remaining query length
strictly dominates the recursion depth, even though the insertion edit grows
the query (it spends budget) and the fuzzy relaxation consumes no query
(it descends into a strictly shorter subtree). -/
theorem collectFuel_isSome {μ : Type} :
    ∀ (fuel : Nat) (col : Col) (word : GoStr) (n : Node μ) (d md l : Nat) (fa fu : Bool),
      collectBound word n d md ≤ fuel →
      (collectFuel fuel col word n d md l fa fu).isSome = true
  | 0, _, word, n, d, md, _, _, _, h => by
    exfalso
    unfold collectBound at h
    omega
  | fuel + 1, col, [], .mk cs w m, d, md, l, fa, fu, h => by
    have hb : 2 * (md - d) + (1 + cs.heightList) + 0 + 1 ≤ fuel + 1 := by
      simpa [collectBound, Node.height, Node.children] using h
    simp only [collectFuel, Node.word, Node.children, List.isEmpty_nil, Bool.true_and]
    cases hw : w.isEmpty with
    | false =>
      simp only [hw, Bool.not_false, if_true]
      exact descendLoop_isSome fuel cs _ d fu (by omega)
    | true =>
      simp only [hw, Bool.not_true, if_false, Bool.false_eq_true, if_true]
      obtain ⟨col1, h1⟩ := Option.isSome_iff_exists.mp
        (descendLoop_isSome fuel cs col d fu (by omega))
      rw [h1, Option.some_bind]
      have hstar : ¬(runeError = starRune) := by decide
      rw [if_neg hstar, Option.some_bind]
      have hstep3 : ∀ col2 : Col,
          ((match cs.find runeError with
            | some next => collectFuel fuel col2 [] next d md l false fu
            | none => some col2)).isSome = true := by
        intro col2
        cases hfind : cs.find runeError with
        | none => simp
        | some next =>
          have hnH : next.height ≤ cs.heightList := height_le_of_mem (find_mem hfind)
          simp only
          exact collectFuel_isSome fuel col2 [] next d md l false fu
            (by simp [collectBound, Node.height, Node.children] at hnH ⊢ <;> omega)
      obtain ⟨col3, h3⟩ := Option.isSome_iff_exists.mp (hstep3 col1)
      rw [h3, Option.some_bind]
      by_cases hdm : d < md
      · rw [if_pos hdm]
        have hedit : ∀ c next, (c, next) ∈ cs.toList →
            (∀ col0 : Col, (collectFuel fuel
              col0 (c :: ([] : GoStr)) (Node.mk cs w m) (d + 1) md l false fu).isSome = true) ∧
            (∀ col0 : Col, (collectFuel fuel
              col0 (c :: ([] : GoStr)) (Node.mk cs w m) (d + 1) md l false fu).isSome = true) ∧
            (∀ col0 : Col, (collectFuel fuel
              col0 ([] : GoStr) next (d + 1 - 1) md l true true).isSome = true) := by
          intro c next hmem
          have hnH : next.height ≤ cs.heightList := height_le_of_mem hmem
          refine ⟨fun col0 => ?_, fun col0 => ?_, fun col0 => ?_⟩
          · exact collectFuel_isSome fuel col0 [c] (.mk cs w m) (d + 1) md l false fu
              (by simp [collectBound, Node.height, Node.children] <;> omega)
          · exact collectFuel_isSome fuel col0 [c] (.mk cs w m) (d + 1) md l false fu
              (by simp [collectBound, Node.height, Node.children] <;> omega)
          · have hd1 : d + 1 - 1 = d := by omega
            rw [hd1]
            exact collectFuel_isSome fuel col0 [] next d md l true true
              (by simp [collectBound, Node.height, Node.children] at hnH ⊢ <;> omega)
        obtain ⟨col4, h4⟩ := Option.isSome_iff_exists.mp
          (editLoop_isSome (fun c2 w2 nd d2 a u => collectFuel fuel c2 w2 nd d2 md l a u)
            [] [] (.mk cs w m) (d + 1) fa fu cs col3 hedit)
        rw [h4, Option.some_bind]
        exact collectFuel_isSome fuel col4 [] (.mk cs w m) (d + 1) md l false false
          (by simp [collectBound, Node.height, Node.children] <;> omega)
      · rw [if_neg hdm]
        by_cases hd0 : d = 0
        · rw [if_pos hd0]
          refine fuzzyLoop_isSome
            (fun c2 w2 nd d2 a u => collectFuel fuel c2 w2 nd d2 md l a u)
            [] d fa cs col3 (fun c next hmem col0 => ?_)
          have hnH : next.height ≤ cs.heightList := height_le_of_mem hmem
          exact collectFuel_isSome fuel col0 [] next d md l true true
            (by simp [collectBound, Node.height, Node.children] at hnH ⊢ <;> omega)
        · rw [if_neg hd0]
          simp
  | fuel + 1, col, c :: rest, .mk cs w m, d, md, l, fa, fu, h => by
    have hb : 2 * (md - d) + (1 + cs.heightList) + (rest.length + 1) + 1 ≤ fuel + 1 := by
      simpa [collectBound, Node.height, Node.children] using h
    simp only [collectFuel, Node.word, Node.children, List.isEmpty_cons, Bool.false_and,
      Bool.false_eq_true, if_false, Option.some_bind]
    have hstep2 : ∀ col1 : Col,
        ((if c = starRune then collectFuel fuel col1 rest (.mk cs w m) d md l false fu
          else some col1)).isSome = true := by
      intro col1
      by_cases hstar : c = starRune
      · rw [if_pos hstar]
        exact collectFuel_isSome fuel col1 rest (.mk cs w m) d md l false fu
          (by simp [collectBound, Node.height, Node.children] <;> omega)
      · rw [if_neg hstar]
        simp
    obtain ⟨col2, h2⟩ := Option.isSome_iff_exists.mp (hstep2 col)
    rw [h2, Option.some_bind]
    have hstep3 : ∀ col2 : Col,
        ((match cs.find c with
          | some next => collectFuel fuel col2 rest next d md l false fu
          | none => some col2)).isSome = true := by
      intro col2
      cases hfind : cs.find c with
      | none => simp
      | some next =>
        have hnH : next.height ≤ cs.heightList := height_le_of_mem (find_mem hfind)
        simp only
        exact collectFuel_isSome fuel col2 rest next d md l false fu
          (by simp [collectBound, Node.height, Node.children] at hnH ⊢ <;> omega)
    obtain ⟨col3, h3⟩ := Option.isSome_iff_exists.mp (hstep3 col2)
    rw [h3, Option.some_bind]
    by_cases hdm : d < md
    · rw [if_pos hdm]
      have hedit : ∀ c2 next, (c2, next) ∈ cs.toList →
          (∀ col0 : Col, (collectFuel fuel
            col0 (c2 :: rest) (Node.mk cs w m) (d + 1) md l false fu).isSome = true) ∧
          (∀ col0 : Col, (collectFuel fuel
            col0 (c2 :: c :: rest) (Node.mk cs w m) (d + 1) md l false fu).isSome = true) ∧
          (∀ col0 : Col, (collectFuel fuel
            col0 (c :: rest) next (d + 1 - 1) md l true true).isSome = true) := by
        intro c2 next hmem
        have hnH : next.height ≤ cs.heightList := height_le_of_mem hmem
        refine ⟨fun col0 => ?_, fun col0 => ?_, fun col0 => ?_⟩
        · exact collectFuel_isSome fuel col0 (c2 :: rest) (.mk cs w m) (d + 1) md l false fu
            (by simp [collectBound, Node.height, Node.children] <;> omega)
        · exact collectFuel_isSome fuel col0 (c2 :: c :: rest) (.mk cs w m) (d + 1) md l false fu
            (by simp [collectBound, Node.height, Node.children] <;> omega)
        · have hd1 : d + 1 - 1 = d := by omega
          rw [hd1]
          exact collectFuel_isSome fuel col0 (c :: rest) next d md l true true
            (by simp [collectBound, Node.height, Node.children] at hnH ⊢ <;> omega)
      obtain ⟨col4, h4⟩ := Option.isSome_iff_exists.mp
        (editLoop_isSome (fun cc ww nd d2 a u => collectFuel fuel cc ww nd d2 md l a u)
          (c :: rest) rest (.mk cs w m) (d + 1) fa fu cs col3 hedit)
      rw [h4, Option.some_bind]
      exact collectFuel_isSome fuel col4 rest (.mk cs w m) (d + 1) md l false false
        (by simp [collectBound, Node.height, Node.children] <;> omega)
    · rw [if_neg hdm]
      by_cases hd0 : d = 0
      · rw [if_pos hd0]
        refine fuzzyLoop_isSome
          (fun cc ww nd d2 a u => collectFuel fuel cc ww nd d2 md l a u)
          (c :: rest) d fa cs col3 (fun c2 next hmem col0 => ?_)
        have hnH : next.height ≤ cs.heightList := height_le_of_mem hmem
        exact collectFuel_isSome fuel col0 (c :: rest) next d md l true true
          (by simp [collectBound, Node.height, Node.children] at hnH ⊢ <;> omega)
      · rw [if_neg hd0]
        simp

/-- C10: for every finite trie, query suffix, distance budget and flag
combination, the recursive traversal terminates: collect and collectMeta
succeed within the collectBound recursion depth, and the descendant sweep
succeeds within the node height — so the search functions are total. -/
theorem C10_collect_terminates {μ : Type} (col : Col) (mcol : MCol μ) (word : GoStr)
    (n : Node μ) (d md l : Nat) (fa fu : Bool) :
    (collectFuel (collectBound word n d md) col word n d md l fa fu).isSome = true ∧
    (collectMetaFuel (collectBound word n d md) mcol word n d md l fa fu).isSome = true ∧
    (descendLoop n.height n.children col d fu).isSome = true ∧
    (mdescendLoop n.height n.children mcol d fu).isSome = true := by
  refine ⟨collectFuel_isSome _ col word n d md l fa fu (Nat.le_refl _), ?_, ?_, ?_⟩
  · have h := collectMetaFuel_proj (collectBound word n d md) mcol word n d md l fa fu
    have h2 := collectFuel_isSome (collectBound word n d md) (projCol mcol) word n d md l
      fa fu (Nat.le_refl _)
    rw [← h] at h2
    simpa using h2
  · exact descendLoop_isSome _ _ col d fu (by simp [Node.height])
  · exact mdescendLoop_isSome _ _ mcol d fu (by simp [Node.height])

/-- Mapping a function through a sorted insertion commutes when the
comparators agree through the function. -/
theorem map_insOne {α β : Type} (f : α → β) (less1 : α → α → Bool) (less2 : β → β → Bool)
    (hrel : ∀ a b, less2 (f a) (f b) = less1 a b) (a : α) :
    ∀ l : List α, (insOne less1 a l).map f = insOne less2 (f a) (l.map f)
  | [] => rfl
  | b :: l => by
    simp only [insOne, List.map_cons, hrel]
    by_cases hab : less1 a b
    · simp [hab]
    · simp only [hab, Bool.false_eq_true, if_false, List.map_cons]
      rw [map_insOne f less1 less2 hrel a l]

/-- Mapping a function through the insertion sort commutes likewise. -/
theorem map_insSort {α β : Type} (f : α → β) (less1 : α → α → Bool) (less2 : β → β → Bool)
    (hrel : ∀ a b, less2 (f a) (f b) = less1 a b) :
    ∀ l : List α, (insSort less1 l).map f = insSort less2 (l.map f)
  | [] => rfl
  | a :: l => by
    simp only [insSort, List.map_cons]
    rw [map_insOne f less1 less2 hrel, map_insSort f less1 less2 hrel l]

/-- Sorted insertion preserves membership. -/
theorem mem_insOne {α : Type} (less : α → α → Bool) (a x : α) :
    ∀ l : List α, x ∈ insOne less a l ↔ x = a ∨ x ∈ l
  | [] => by simp [insOne]
  | b :: l => by
    simp only [insOne]
    by_cases hab : less a b
    · simp [hab]
    · simp only [hab, Bool.false_eq_true, if_false, List.mem_cons, mem_insOne less a x l]
      tauto

/-- The insertion sort preserves membership. -/
theorem mem_insSort {α : Type} (less : α → α → Bool) (x : α) :
    ∀ l : List α, x ∈ insSort less l ↔ x ∈ l
  | [] => Iff.rfl
  | a :: l => by
    simp only [insSort, mem_insOne, mem_insSort less x l, List.mem_cons]

/-- The SearchAllMeta comparator is the Search comparator read through the
projected collection. -/
theorem metaLess_eq_searchLess {μ : Type} (mcol : MCol μ) (a b : Match μ) :
    searchLess (projCol mcol) a.Word b.Word = metaLess mcol a b := by
  unfold searchLess metaLess
  rw [mapGet_projCol, mapGet_projCol]
  cases mapGet mcol a.Word <;> cases mapGet mcol b.Word <;> rfl

/-- The words of the sorted meta hits are exactly the sorted plain hits. -/
theorem metaSorted_words {μ : Type} (t : Trie μ) (s2 : GoStr) :
    (t.metaSorted s2).map Match.Word = t.sortedHits s2 0 := by
  simp only [Trie.metaSorted, Trie.sortedHits, Trie.mcollection, Trie.collection]
  cases hm : collectMetaFuel (collectBound s2 t.root 0 (t.maxDistance s2)) [] s2 t.root 0
      (t.maxDistance s2) 0 t.fuzzy false with
  | none =>
    have hp : collectFuel (collectBound s2 t.root 0 (t.maxDistance s2)) [] s2 t.root 0
        (t.maxDistance s2) 0 t.fuzzy false = none := by
      rw [show ([] : Col) = projCol ([] : MCol μ) from rfl, ← collectMetaFuel_proj, hm]
      rfl
    rw [hp]
    rfl
  | some mcol =>
    have hp : collectFuel (collectBound s2 t.root 0 (t.maxDistance s2)) [] s2 t.root 0
        (t.maxDistance s2) 0 t.fuzzy false = some (projCol mcol) := by
      rw [show ([] : Col) = projCol ([] : MCol μ) from rfl, ← collectMetaFuel_proj, hm]
      rfl
    rw [hp]
    simp only [Option.getD_some]
    rw [map_insSort Match.Word (metaLess mcol) (searchLess (projCol mcol))
      (metaLess_eq_searchLess mcol)]
    have hwords : (mcol.map (fun p => (⟨p.1, p.2.meta⟩ : Match μ))).map Match.Word =
        (projCol mcol).map Prod.fst := by
      simp [projCol, List.map_map, Function.comp]
    rw [hwords]

/-- Registry expansion by word: when every hit word has a non-empty
dictionary entry, the meta expansion and the plain expansion produce the
same word sequence. -/
theorem expand_words {μ : Type} (dict : List (GoStr × List GoStr)) :
    ∀ ms : List (Match μ), (∀ w2 ∈ ms.map Match.Word, (mapGet dict w2).getD [] ≠ []) →
      (ms.flatMap (fun hit =>
        if ((mapGet dict hit.Word).getD []).isEmpty then [hit]
        else ((mapGet dict hit.Word).getD []).map
          (fun orig => (⟨orig, hit.Meta⟩ : Match μ)))).map Match.Word
      = (ms.map Match.Word).flatMap (fun h2 => (mapGet dict h2).getD [])
  | [], _ => rfl
  | mh :: rest, h => by
    have hm := h mh.Word (by simp)
    have hne : ((mapGet dict mh.Word).getD []).isEmpty = false :=
      List.isEmpty_eq_false.mpr hm
    simp only [List.flatMap_cons, List.map_append, List.map_cons, hne, Bool.false_eq_true,
      if_false, List.map_map]
    rw [expand_words dict rest (fun w2 hw => h w2 (by simp [hw]))]
    have hcomp : (Match.Word ∘ fun orig => ({ Word := orig, Meta := mh.Meta } : Match μ)) = id := by
      funext orig
      rfl
    rw [hcomp, List.map_id]

/-- Every entry of an assigned map is the assigned pair or an old entry. -/
theorem mem_mapSet {α β : Type} [DecidableEq α] {a : α} {b : β} {p : α × β} :
    ∀ {l : List (α × β)}, p ∈ mapSet l a b → p = (a, b) ∨ p ∈ l
  | [], h => by simpa [mapSet] using h
  | (k, v) :: rest, h => by
    by_cases hk : k = a
    · rw [mapSet, if_pos hk] at h
      rcases List.mem_cons.mp h with h1 | h2
      · exact Or.inl h1
      · exact Or.inr (List.mem_cons_of_mem _ h2)
    · rw [mapSet, if_neg hk] at h
      rcases List.mem_cons.mp h with h1 | h2
      · exact Or.inr (h1 ▸ List.mem_cons_self _ _)
      · rcases mem_mapSet h2 with h3 | h4
        · exact Or.inl h3
        · exact Or.inr (List.mem_cons_of_mem _ h4)

/-- A child found in a children map occurs among its subnodes. -/
theorem childMem_subnodesList {μ : Type} {c : Rune} {n2 : Node μ} :
    ∀ {cs : ChildList μ}, (c, n2) ∈ cs.toList → n2 ∈ subnodesList cs
  | .cons r (.mk cs2 w2 m2) rest, h => by
    simp only [ChildList.toList, List.mem_cons] at h
    rcases h with h1 | h2
    · injection h1 with hc hn
      subst hn
      simp [subnodesList]
    · simp only [subnodesList, List.mem_cons, List.mem_append]
      exact Or.inr (Or.inr (childMem_subnodesList h2))

/-- Subnodes of a subnode are subnodes. -/
theorem subnodesList_trans {μ : Type} :
    ∀ (cs : ChildList μ) (n : Node μ), n ∈ subnodesList cs →
      ∀ x ∈ subnodesList n.children, x ∈ subnodesList cs
  | .cons r (.mk cs2 w2 m2) rest, n, hn, x, hx => by
    simp only [subnodesList, List.mem_cons, List.mem_append] at hn ⊢
    rcases hn with h1 | h2 | h3
    · subst h1
      simp only [Node.children] at hx
      exact Or.inr (Or.inl hx)
    · exact Or.inr (Or.inl (subnodesList_trans cs2 n h2 x hx))
    · exact Or.inr (Or.inr (subnodesList_trans rest n h3 x hx))

/-- Stepping to any node below a subnode of the root stays below the root. -/
theorem subnode_step {μ : Type} {root n x : Node μ}
    (hn : n ∈ root.subnodes) (hx : x ∈ subnodesList n.children) :
    x ∈ root.subnodes := by
  simp only [Node.subnodes, List.mem_cons] at hn ⊢
  rcases hn with h1 | h2
  · subst h1
    exact Or.inr hx
  · exact Or.inr (subnodesList_trans _ n h2 x hx)

/-- The best-score update preserves per-word canonical metadata, provided
the new entry itself carries the canonical metadata of its word. -/
theorem metaOk_mscoreUpdate {μ : Type} {root : Node μ} {mcol : MCol μ} {w : GoStr}
    {d : Nat} {fu : Bool} {m : Option μ} (hcol : metaOkCol root mcol)
    (hnew : nodeMetaIs root w m) : metaOkCol root (mscoreUpdate mcol w d fu m) := by
  intro p hp
  unfold mscoreUpdate at hp
  cases hget : mapGet mcol w with
  | none =>
    rw [hget] at hp
    simp only [] at hp
    rcases mem_mapSet hp with h1 | h2
    · rw [h1]
      exact hnew
    · exact hcol p h2
  | some prev =>
    rw [hget] at hp
    simp only [] at hp
    by_cases hcond : d < prev.score.levenshtein ∨
        (d = prev.score.levenshtein ∧ prev.score.fuzzy = true ∧ fu = false)
    · rw [if_pos hcond] at hp
      rcases mem_mapSet hp with h1 | h2
      · rw [h1]
        exact hnew
      · exact hcol p h2
    · rw [if_neg hcond] at hp
      exact hcol p hp

/-- The descendant sweep only records subnode words with their own node
metadata, so it preserves per-word canonical metadata under the path
invariant. -/
theorem mdescend_metaOk {μ : Type} {root : Node μ}
    (hwf : ∀ n2 ∈ root.subnodes, n2.word.isEmpty = false →
      nodeMetaIs root n2.word n2.meta) :
    ∀ (fuel : Nat) (cs : ChildList μ) (mcol : MCol μ) (d : Nat) (fu : Bool)
      (mcol2 : MCol μ), (∀ x ∈ subnodesList cs, x ∈ root.subnodes) →
      metaOkCol root mcol → mdescendLoop fuel cs mcol d fu = some mcol2 →
      metaOkCol root mcol2
  | _, .nil, mcol, d, fu, mcol2, _, hcol, heq => by
    rw [mdescendLoop] at heq
    cases heq
    exact hcol
  | fuel, .cons r (.mk cs2 w2 m2) rest, mcol, d, fu, mcol2, hsub, hcol, heq => by
    have hchild : Node.mk cs2 w2 m2 ∈ root.subnodes :=
      hsub _ (by simp [subnodesList])
    have hcol1 : metaOkCol root (if w2.isEmpty then mcol else mscoreUpdate mcol w2 d fu m2) := by
      cases hw2 : w2.isEmpty with
      | true => simpa using hcol
      | false =>
        simp only [hw2, Bool.false_eq_true, if_false]
        exact metaOk_mscoreUpdate hcol (hwf _ hchild (by simp [Node.word, hw2]))
    simp only [mdescendLoop] at heq
    cases fuel with
    | zero => cases heq
    | succ f =>
      simp only at heq
      cases hm1 : mdescendLoop f cs2
          (if w2.isEmpty then mcol else mscoreUpdate mcol w2 d fu m2) d fu with
      | none =>
        rw [hm1] at heq
        cases heq
      | some mcol1 =>
        rw [hm1, Option.some_bind] at heq
        have hsub2 : ∀ x ∈ subnodesList cs2, x ∈ root.subnodes := by
          intro x hx
          exact hsub x (by simp only [subnodesList, List.mem_cons, List.mem_append]; tauto)
        have hsubr : ∀ x ∈ subnodesList rest, x ∈ root.subnodes := by
          intro x hx
          exact hsub x (by simp only [subnodesList, List.mem_cons, List.mem_append]; tauto)
        exact mdescend_metaOk hwf (f + 1) rest mcol1 d fu mcol2 hsubr
          (mdescend_metaOk hwf f cs2 _ d fu mcol1 hsub2 hcol1 hm1) heq

/-- The edit-operations loop preserves per-word canonical metadata when the
per-call function does. -/
theorem medit_metaOk {μ : Type} {root : Node μ}
    (fM : MCol μ → GoStr → Node μ → Nat → Bool → Bool → Option (MCol μ))
    (hf : ∀ mcol0 w2 nd d2 a u mcol3, nd ∈ root.subnodes → metaOkCol root mcol0 →
      fM mcol0 w2 nd d2 a u = some mcol3 → metaOkCol root mcol3)
    (word subword : GoStr) (n : Node μ) (d1 : Nat) (fa fu : Bool)
    (hn : n ∈ root.subnodes) :
    ∀ (cs : ChildList μ) (mcol mcol2 : MCol μ),
      (∀ c next, (c, next) ∈ cs.toList → next ∈ root.subnodes) →
      metaOkCol root mcol →
      meditLoop fM word subword n d1 fa fu cs mcol = some mcol2 →
      metaOkCol root mcol2
  | .nil, mcol, mcol2, _, hcol, heq => by
    rw [meditLoop] at heq
    cases heq
    exact hcol
  | .cons c next rest, mcol, mcol2, hcs, hcol, heq => by
    simp only [meditLoop] at heq
    have hnext : next ∈ root.subnodes := hcs c next (by simp [ChildList.toList])
    cases hm1 : fM mcol (c :: subword) n d1 false fu with
    | none =>
      rw [hm1, Option.none_bind] at heq
      cases heq
    | some mcolA =>
      rw [hm1, Option.some_bind] at heq
      have hcolA := hf _ _ _ _ _ _ _ hn hcol hm1
      cases hm2 : fM mcolA (c :: word) n d1 false fu with
      | none =>
        rw [hm2, Option.none_bind] at heq
        cases heq
      | some mcolB =>
        rw [hm2, Option.some_bind] at heq
        have hcolB := hf _ _ _ _ _ _ _ hn hcolA hm2
        by_cases hfa : fa = true
        case neg =>
          rw [if_neg hfa, Option.some_bind] at heq
          exact medit_metaOk fM hf word subword n d1 fa fu hn rest mcolB mcol2
            (fun c2 n2 hm => hcs c2 n2 (List.mem_cons_of_mem _ hm)) hcolB heq
        case pos =>
          rw [if_pos hfa] at heq
          cases hm3 : fM mcolB word next (d1 - 1) true true with
          | none =>
            rw [hm3, Option.none_bind] at heq
            cases heq
          | some mcolC =>
            rw [hm3, Option.some_bind] at heq
            have hcolC := hf _ _ _ _ _ _ _ hnext hcolB hm3
            exact medit_metaOk fM hf word subword n d1 fa fu hn rest mcolC mcol2
              (fun c2 n2 hm => hcs c2 n2 (List.mem_cons_of_mem _ hm)) hcolC heq

/-- The exhausted-budget loop preserves per-word canonical metadata when the
per-call function does. -/
theorem mfuzzy_metaOk {μ : Type} {root : Node μ}
    (fM : MCol μ → GoStr → Node μ → Nat → Bool → Bool → Option (MCol μ))
    (hf : ∀ mcol0 w2 nd d2 a u mcol3, nd ∈ root.subnodes → metaOkCol root mcol0 →
      fM mcol0 w2 nd d2 a u = some mcol3 → metaOkCol root mcol3)
    (word : GoStr) (d : Nat) (fa : Bool) :
    ∀ (cs : ChildList μ) (mcol mcol2 : MCol μ),
      (∀ c next, (c, next) ∈ cs.toList → next ∈ root.subnodes) →
      metaOkCol root mcol →
      mfuzzyLoop fM word d fa cs mcol = some mcol2 →
      metaOkCol root mcol2
  | .nil, mcol, mcol2, _, hcol, heq => by
    rw [mfuzzyLoop] at heq
    cases heq
    exact hcol
  | .cons c next rest, mcol, mcol2, hcs, hcol, heq => by
    simp only [mfuzzyLoop] at heq
    have hnext : next ∈ root.subnodes := hcs c next (by simp [ChildList.toList])
    by_cases hfa : fa = true
    case neg =>
      rw [if_neg hfa, Option.some_bind] at heq
      exact mfuzzy_metaOk fM hf word d fa rest mcol mcol2
        (fun c2 n2 hm => hcs c2 n2 (List.mem_cons_of_mem _ hm)) hcol heq
    case pos =>
      rw [if_pos hfa] at heq
      cases hm1 : fM mcol word next d true true with
      | none =>
        rw [hm1, Option.none_bind] at heq
        cases heq
      | some mcolA =>
        rw [hm1, Option.some_bind] at heq
        have hcolA := hf _ _ _ _ _ _ _ hnext hcol hm1
        exact mfuzzy_metaOk fM hf word d fa rest mcolA mcol2
          (fun c2 n2 hm => hcs c2 n2 (List.mem_cons_of_mem _ hm)) hcolA heq

/-- collectMeta only ever stores a word together with the metadata of its
canonical node: every update site records node.word with node.meta of a
node reachable from the root, and the path invariant identifies that node
with the one found at the word's own path. -/
theorem collectMeta_metaOk {μ : Type} {root : Node μ}
    (hwf : ∀ n2 ∈ root.subnodes, n2.word.isEmpty = false →
      nodeMetaIs root n2.word n2.meta) :
    ∀ (fuel : Nat) (mcol : MCol μ) (word : GoStr) (n : Node μ) (d md l : Nat)
      (fa fu : Bool) (mcol2 : MCol μ), n ∈ root.subnodes → metaOkCol root mcol →
      collectMetaFuel fuel mcol word n d md l fa fu = some mcol2 →
      metaOkCol root mcol2
  | 0, _, _, _, _, _, _, _, _, _, _, _, heq => by cases heq
  | fuel + 1, mcol, [], .mk cs w m, d, md, l, fa, fu, mcol2, hn, hcol, heq => by
    simp only [collectMetaFuel, Node.word, Node.children, Node.meta, List.isEmpty_nil,
      Bool.true_and] at heq
    have hsubcs : ∀ x ∈ subnodesList cs, x ∈ root.subnodes :=
      fun x hx => subnode_step hn hx
    have hcs2 : ∀ c next, (c, next) ∈ cs.toList → next ∈ root.subnodes :=
      fun c next hm => subnode_step hn (childMem_subnodesList hm)
    have hfM : ∀ mcol0 w2 nd d2 a u mcol3, nd ∈ root.subnodes → metaOkCol root mcol0 →
        collectMetaFuel fuel mcol0 w2 nd d2 md l a u = some mcol3 → metaOkCol root mcol3 :=
      fun mcol0 w2 nd d2 a u mcol3 hnd hc0 he =>
        collectMeta_metaOk hwf fuel mcol0 w2 nd d2 md l a u mcol3 hnd hc0 he
    cases hw : w.isEmpty with
    | false =>
      simp only [hw, Bool.not_false, if_true] at heq
      have hnew : nodeMetaIs root w m :=
        hwf (.mk cs w m) hn (by simp [Node.word, hw])
      exact mdescend_metaOk hwf fuel cs _ d fu mcol2 hsubcs
        (metaOk_mscoreUpdate hcol hnew) heq
    | true =>
      simp only [hw, Bool.not_true, if_false, Bool.false_eq_true, if_true] at heq
      cases hm1 : mdescendLoop fuel cs mcol d fu with
      | none =>
        rw [hm1, Option.none_bind] at heq
        cases heq
      | some mcolA =>
        rw [hm1, Option.some_bind] at heq
        have hcolA := mdescend_metaOk hwf fuel cs mcol d fu mcolA hsubcs hcol hm1
        have hstar : ¬(runeError = starRune) := by decide
        rw [if_neg hstar, Option.some_bind] at heq
        cases hfind : cs.find runeError with
        | none =>
          simp only [hfind, Option.some_bind] at heq
          by_cases hdm : d < md
          · rw [if_pos hdm] at heq
            cases hm4 : meditLoop
                (fun c2 w2 nd d2 a u => collectMetaFuel fuel c2 w2 nd d2 md l a u)
                [] [] (.mk cs w m) (d + 1) fa fu cs mcolA with
            | none =>
              rw [hm4, Option.none_bind] at heq
              cases heq
            | some mcolD =>
              rw [hm4, Option.some_bind] at heq
              have hcolD := medit_metaOk _ hfM [] [] (.mk cs w m) (d + 1) fa fu hn
                cs mcolA mcolD hcs2 hcolA hm4
              exact collectMeta_metaOk hwf fuel mcolD [] (.mk cs w m) (d + 1) md l
                false false mcol2 hn hcolD heq
          · rw [if_neg hdm] at heq
            by_cases hd0 : d = 0
            · rw [if_pos hd0] at heq
              exact mfuzzy_metaOk _ hfM [] d fa cs mcolA mcol2 hcs2 hcolA heq
            · rw [if_neg hd0] at heq
              cases heq
              exact hcolA
        | some next =>
          simp only [hfind] at heq
          have hnext : next ∈ root.subnodes := hcs2 _ _ (find_mem hfind)
          cases hm2 : collectMetaFuel fuel mcolA [] next d md l false fu with
          | none =>
            rw [hm2, Option.none_bind] at heq
            cases heq
          | some mcolB =>
            rw [hm2, Option.some_bind] at heq
            have hcolB := collectMeta_metaOk hwf fuel mcolA [] next d md l false fu
              mcolB hnext hcolA hm2
            by_cases hdm : d < md
            · rw [if_pos hdm] at heq
              cases hm4 : meditLoop
                  (fun c2 w2 nd d2 a u => collectMetaFuel fuel c2 w2 nd d2 md l a u)
                  [] [] (.mk cs w m) (d + 1) fa fu cs mcolB with
              | none =>
                rw [hm4, Option.none_bind] at heq
                cases heq
              | some mcolD =>
                rw [hm4, Option.some_bind] at heq
                have hcolD := medit_metaOk _ hfM [] [] (.mk cs w m) (d + 1) fa fu hn
                  cs mcolB mcolD hcs2 hcolB hm4
                exact collectMeta_metaOk hwf fuel mcolD [] (.mk cs w m) (d + 1) md l
                  false false mcol2 hn hcolD heq
            · rw [if_neg hdm] at heq
              by_cases hd0 : d = 0
              · rw [if_pos hd0] at heq
                exact mfuzzy_metaOk _ hfM [] d fa cs mcolB mcol2 hcs2 hcolB heq
              · rw [if_neg hd0] at heq
                cases heq
                exact hcolB
  | fuel + 1, mcol, c :: rest, .mk cs w m, d, md, l, fa, fu, mcol2, hn, hcol, heq => by
    simp only [collectMetaFuel, Node.word, Node.children, Node.meta, List.isEmpty_cons,
      Bool.false_and, Bool.false_eq_true, if_false, Option.some_bind] at heq
    have hcs2 : ∀ c2 next, (c2, next) ∈ cs.toList → next ∈ root.subnodes :=
      fun c2 next hm => subnode_step hn (childMem_subnodesList hm)
    have hfM : ∀ mcol0 w2 nd d2 a u mcol3, nd ∈ root.subnodes → metaOkCol root mcol0 →
        collectMetaFuel fuel mcol0 w2 nd d2 md l a u = some mcol3 → metaOkCol root mcol3 :=
      fun mcol0 w2 nd d2 a u mcol3 hnd hc0 he =>
        collectMeta_metaOk hwf fuel mcol0 w2 nd d2 md l a u mcol3 hnd hc0 he
    cases hstage : (if c = starRune then
        collectMetaFuel fuel mcol rest (.mk cs w m) d md l false fu else some mcol) with
    | none =>
      rw [hstage, Option.none_bind] at heq
      cases heq
    | some mcolA =>
      rw [hstage, Option.some_bind] at heq
      have hcolA : metaOkCol root mcolA := by
        by_cases hstar : c = starRune
        · rw [if_pos hstar] at hstage
          exact collectMeta_metaOk hwf fuel mcol rest (.mk cs w m) d md l false fu
            mcolA hn hcol hstage
        · rw [if_neg hstar] at hstage
          cases hstage
          exact hcol
      cases hfind : cs.find c with
      | none =>
        simp only [hfind, Option.some_bind] at heq
        by_cases hdm : d < md
        · rw [if_pos hdm] at heq
          cases hm4 : meditLoop
              (fun c2 w2 nd d2 a u => collectMetaFuel fuel c2 w2 nd d2 md l a u)
              (c :: rest) rest (.mk cs w m) (d + 1) fa fu cs mcolA with
          | none =>
            rw [hm4, Option.none_bind] at heq
            cases heq
          | some mcolD =>
            rw [hm4, Option.some_bind] at heq
            have hcolD := medit_metaOk _ hfM (c :: rest) rest (.mk cs w m) (d + 1) fa fu hn
              cs mcolA mcolD hcs2 hcolA hm4
            exact collectMeta_metaOk hwf fuel mcolD rest (.mk cs w m) (d + 1) md l
              false false mcol2 hn hcolD heq
        · rw [if_neg hdm] at heq
          by_cases hd0 : d = 0
          · rw [if_pos hd0] at heq
            exact mfuzzy_metaOk _ hfM (c :: rest) d fa cs mcolA mcol2 hcs2 hcolA heq
          · rw [if_neg hd0] at heq
            cases heq
            exact hcolA
      | some next =>
        simp only [hfind] at heq
        have hnext : next ∈ root.subnodes := hcs2 _ _ (find_mem hfind)
        cases hm2 : collectMetaFuel fuel mcolA rest next d md l false fu with
        | none =>
          rw [hm2, Option.none_bind] at heq
          cases heq
        | some mcolB =>
          rw [hm2, Option.some_bind] at heq
          have hcolB := collectMeta_metaOk hwf fuel mcolA rest next d md l false fu
            mcolB hnext hcolA hm2
          by_cases hdm : d < md
          · rw [if_pos hdm] at heq
            cases hm4 : meditLoop
                (fun c2 w2 nd d2 a u => collectMetaFuel fuel c2 w2 nd d2 md l a u)
                (c :: rest) rest (.mk cs w m) (d + 1) fa fu cs mcolB with
            | none =>
              rw [hm4, Option.none_bind] at heq
              cases heq
            | some mcolD =>
              rw [hm4, Option.some_bind] at heq
              have hcolD := medit_metaOk _ hfM (c :: rest) rest (.mk cs w m) (d + 1) fa fu hn
                cs mcolB mcolD hcs2 hcolB hm4
              exact collectMeta_metaOk hwf fuel mcolD rest (.mk cs w m) (d + 1) md l
                false false mcol2 hn hcolD heq
          · rw [if_neg hdm] at heq
            by_cases hd0 : d = 0
            · rw [if_pos hd0] at heq
              exact mfuzzy_metaOk _ hfM (c :: rest) d fa cs mcolB mcol2 hcs2 hcolB heq
            · rw [if_neg hd0] at heq
              cases heq
              exact hcolB

/-- The collection SearchAllMeta builds pairs every word with the metadata
stored at its canonical node, under the path invariant. -/
theorem mcollection_metaOk {μ : Type} (t : Trie μ) (s2 : GoStr)
    (hwf : ∀ n2 ∈ t.root.subnodes, n2.word.isEmpty = false →
      nodeMetaIs t.root n2.word n2.meta) :
    metaOkCol t.root (t.mcollection s2) := by
  intro p hp
  simp only [Trie.mcollection] at hp
  cases hm : collectMetaFuel (collectBound s2 t.root 0 (t.maxDistance s2)) [] s2 t.root 0
      (t.maxDistance s2) 0 t.fuzzy false with
  | none =>
    rw [hm] at hp
    cases hp
  | some mcol2 =>
    rw [hm] at hp
    simp only [Option.getD_some] at hp
    exact collectMeta_metaOk hwf _ [] s2 t.root 0 (t.maxDistance s2) 0 t.fuzzy false
      mcol2 (by simp [Node.subnodes]) (fun p2 hp2 => absurd hp2 (List.not_mem_nil p2)) hm
      p hp

/-- C6 counterexample: insert a under a case-sensitive unnormalised
configuration (which writes no registry entry), then switch the same trie to
case-insensitive: SearchAllMeta("a") returns the canonical hit a while
SearchAll("a") returns nothing, so the metadata variant does not yield the
same words as the plain variant on this reachable state. -/
theorem C6_meta_plain_divergence :
    (switchedTrie.SearchAllMeta asciiCtx (goStr "a")).map Match.Word = [goStr "a"] ∧
    switchedTrie.SearchAll asciiCtx (goStr "a") = [] := by decide

/-- C6 amended: SearchAllMeta yields exactly the words of SearchAll in the
same order whenever the expansion step is skipped (unnormalised and
case-sensitive) or every canonical hit has a non-empty registry entry (the
two differ only on canonical hits with empty registry entries, which
SearchAll drops and SearchAllMeta returns as themselves); and, whenever
every reachable terminal node sits at the path spelled by its stored word
(the data-model path invariant), every SearchAllMeta record carries the
metadata stored at the canonical node of one of the search's canonical
hits — the record's word being that canonical hit or one of its registry
originals. -/
theorem C6_meta_variant_same_words {μ : Type} (ctx : Ctx) (t : Trie μ) (q : GoStr) :
    (((t.normalised = false ∧ t.caseSensitive = true) ∨
        (∀ w2 ∈ t.searchHits ctx q, (mapGet t.originalDict w2).getD [] ≠ [])) →
      (t.SearchAllMeta ctx q).map Match.Word = t.SearchAll ctx q) ∧
    ((∀ n2 ∈ t.root.subnodes, n2.word.isEmpty = false →
        nodeMetaIs t.root n2.word n2.meta) →
      ∀ out ∈ t.SearchAllMeta ctx q, ∃ h2, h2 ∈ t.searchHits ctx q ∧
        nodeMetaIs t.root h2 out.Meta ∧
        (out.Word = h2 ∨ out.Word ∈ (mapGet t.originalDict h2).getD [])) := by
  constructor
  · intro h
    simp only [Trie.SearchAll, Trie.Search, Trie.SearchAllMeta, Trie.searchHits] at h ⊢
    cases hq : q.isEmpty with
    | true => simp
    | false =>
      rw [hq] at h
      simp only [Bool.false_eq_true, if_false] at h ⊢
      cases hc : searchCanonical ctx t q with
      | none => simp
      | some s2 =>
        rw [hc] at h
        simp only [] at h ⊢
        have hlim : (decide ((0 : Nat) ≤ (t.sortedHits s2 0).length) &&
            decide ¬((0 : Nat) = 0)) = false := by
          simp
        rw [hlim]
        simp only [Bool.false_eq_true, if_false]
        cases hcfg : (!t.normalised && t.caseSensitive) with
        | true => simp [metaSorted_words]
        | false =>
          have hdict : ∀ w2 ∈ t.sortedHits s2 0, (mapGet t.originalDict w2).getD [] ≠ [] := by
            rcases h with ⟨hn, hcs⟩ | hr
            · exfalso
              rw [hn, hcs] at hcfg
              simp at hcfg
            · exact hr
          simp only [Bool.false_eq_true, if_false]
          rw [expand_words t.originalDict (t.metaSorted s2)
            (by rw [metaSorted_words]; exact hdict)]
          rw [metaSorted_words]
  · intro hwf out hout
    simp only [Trie.SearchAllMeta] at hout
    by_cases hq : q.isEmpty
    · simp [hq] at hout
    · have hq2 : q.isEmpty = false := by simpa using hq
      rw [hq2] at hout
      simp only [Bool.false_eq_true, if_false] at hout
      cases hc : searchCanonical ctx t q with
      | none =>
        rw [hc] at hout
        simp at hout
      | some s2 =>
        rw [hc] at hout
        simp only [] at hout
        have hsh : t.searchHits ctx q = t.sortedHits s2 0 := by
          simp only [Trie.searchHits, hq2, Bool.false_eq_true, if_false, hc]
        have hmcolOk : metaOkCol t.root (t.mcollection s2) := mcollection_metaOk t s2 hwf
        have hmem_sorted : ∀ hit ∈ t.metaSorted s2,
            hit.Word ∈ t.sortedHits s2 0 ∧ nodeMetaIs t.root hit.Word hit.Meta := by
          intro hit hhit
          refine ⟨by rw [← metaSorted_words]; exact List.mem_map_of_mem Match.Word hhit, ?_⟩
          simp only [Trie.metaSorted] at hhit
          rw [mem_insSort] at hhit
          obtain ⟨p, hp, hpe⟩ := List.mem_map.mp hhit
          have hok := hmcolOk p hp
          rw [← hpe]
          exact hok
        cases hcfg : (!t.normalised && t.caseSensitive) with
        | true =>
          rw [hcfg] at hout
          simp only [if_true] at hout
          obtain ⟨hw, hm⟩ := hmem_sorted out hout
          exact ⟨out.Word, by rw [hsh]; exact hw, hm, Or.inl rfl⟩
        | false =>
          rw [hcfg] at hout
          simp only [Bool.false_eq_true, if_false] at hout
          rw [List.mem_flatMap] at hout
          obtain ⟨hit, hhit, hout2⟩ := hout
          obtain ⟨hw, hm⟩ := hmem_sorted hit hhit
          by_cases hoe : ((mapGet t.originalDict hit.Word).getD []).isEmpty
          · rw [if_pos hoe] at hout2
            have hout3 : out = hit := by simpa using hout2
            subst hout3
            exact ⟨out.Word, by rw [hsh]; exact hw, hm, Or.inl rfl⟩
          · rw [if_neg hoe] at hout2
            obtain ⟨orig, horig, hoeq⟩ := List.mem_map.mp hout2
            refine ⟨hit.Word, by rw [hsh]; exact hw, ?_, ?_⟩
            · rw [← hoeq]
              exact hm
            · rw [← hoeq]
              exact Or.inr horig


/-- C6 witness: on the weekday dictionary every canonical hit of the query
mon has a registry entry and the path invariant holds, so the meta search
words equal the plain search results and every record carries the metadata
of a canonical hit's node. -/
theorem C6_meta_variant_witness :
    (∀ w2 ∈ dayTrie.searchHits asciiCtx (goStr "mon"),
      (mapGet dayTrie.originalDict w2).getD [] ≠ []) ∧
    (∀ n2 ∈ dayTrie.root.subnodes, n2.word.isEmpty = false →
      nodeMetaIs dayTrie.root n2.word n2.meta) ∧
    (dayTrie.SearchAllMeta asciiCtx (goStr "mon")).map Match.Word =
      dayTrie.SearchAll asciiCtx (goStr "mon") ∧
    (∀ out ∈ dayTrie.SearchAllMeta asciiCtx (goStr "mon"), ∃ h2,
      h2 ∈ dayTrie.searchHits asciiCtx (goStr "mon") ∧
      nodeMetaIs dayTrie.root h2 out.Meta ∧
      (out.Word = h2 ∨ out.Word ∈ (mapGet dayTrie.originalDict h2).getD [])) :=
  ⟨by decide, by decide,
    (C6_meta_variant_same_words asciiCtx dayTrie (goStr "mon")).1 (Or.inr (by decide)),
    (C6_meta_variant_same_words asciiCtx dayTrie (goStr "mon")).2 (by decide)⟩

end GoTrie
